import Mathlib

/-!
Verification of the chunked translation pipeline in `translation_processor.py`.

Python strings are embedded as `List Char` (named `Str` below); the Python
string operations used by the source (`str.split` on `"\n"` / `"\n\n"` /
`"_"`, `str.strip`, `"\n".join`, f-string concatenation, `int(...)` on a
digit string, `f"{i:03d}"`) are defined below mirroring Python semantics.
The two anchored regular expressions of the source,
`^(\d+)\.\s*(.*?)\s*\[URL:(.*?)\]$` and `^(\d+)\.\s*(.*)$`, are embedded as
explicit string matchers (`matchItemWithUrl`, `matchItemNoUrl`); the
surrounding code always applies `.strip()` to the captured groups, and the
matchers return the already-stripped captures.

Wall-clock time and durations (Python floats from `time.time()`) are
embedded as rationals; `time.sleep` and scheduling slack appear as
universally quantified non-negative drifts.
-/

abbrev Str := List Char

/-- Python `str.isspace` characters relevant to `str.strip()` (ASCII range,
as produced by this program's inputs): space, tab, newline, carriage
return, vertical tab, form feed. -/
def isPySpace (c : Char) : Bool :=
  c = ' ' || c = '\t' || c = '\n' || c = '\r' || c = Char.ofNat 11 || c = Char.ofNat 12

/-- Python `s.strip()`: drop leading and trailing whitespace. -/
def pyStrip (s : Str) : Str :=
  ((s.dropWhile isPySpace).reverse.dropWhile isPySpace).reverse

/-- Python `s.split(sep)` for a one-character separator `sep`. -/
def splitCh (sep : Char) : Str → List Str
  | [] => [[]]
  | c :: rest =>
    if c = sep then [] :: splitCh sep rest
    else
      match splitCh sep rest with
      | [] => [[c]]
      | r :: rs => (c :: r) :: rs

/-- Python `s.split(sep)` for a two-character separator `sep = ⟨a, b⟩`
(used by the source as `content.split('\n\n')`): leftmost,
non-overlapping occurrences. -/
def split2 (a b : Char) : Str → List Str
  | [] => [[]]
  | [c] => [[c]]
  | c1 :: c2 :: rest =>
    if c1 = a ∧ c2 = b then [] :: split2 a b rest
    else
      match split2 a b (c2 :: rest) with
      | [] => [[c1]]
      | r :: rs => (c1 :: r) :: rs

/-- Python `sep.join(xs)`. -/
def pyJoin (sep : Str) : List Str → Str
  | [] => []
  | [x] => x
  | x :: y :: rest => x ++ sep ++ pyJoin sep (y :: rest)

/-- Break a string at the first occurrence of `sep` (nonempty): returns
`some (before, after)` with the occurrence removed, `none` if `sep` does
not occur.  Used to embed the lazy group of `\[URL:(.*?)\]$`. -/
def breakOn (sep : Str) : Str → Option (Str × Str)
  | [] => none
  | c :: rest =>
    if sep.isPrefixOf (c :: rest) then some ([], (c :: rest).drop sep.length)
    else
      match breakOn sep rest with
      | some (pre, post) => some (c :: pre, post)
      | none => none

/-- Leading run of decimal digits followed by a literal dot: embeds the
anchored prefix `^(\d+)\.` shared by both regular expressions of the
source.  Returns the digit group and the remainder after the dot. -/
def parseNumDot (s : Str) : Option (Str × Str) :=
  let digits := s.takeWhile Char.isDigit
  let rest := s.dropWhile Char.isDigit
  if digits.isEmpty then none
  else
    match rest with
    | '.' :: tail => some (digits, tail)
    | _ => none

/-- Embeds `re.match(r'^(\d+)\.\s*(.*?)\s*\[URL:(.*?)\]$', line)` together
with the `.strip()` the source applies to the captured text and url: the
match succeeds exactly when the line starts with digits and a dot,
contains `[URL:` after the dot, and ends with `]`; the text group is
everything between the dot and the first `[URL:`, the url group is
everything between that `[URL:` and the final `]`. -/
def matchItemWithUrl (line : Str) : Option (Str × Str × Str) :=
  match parseNumDot line with
  | none => none
  | some (num, rest) =>
    match breakOn ('[' :: 'U' :: 'R' :: 'L' :: ':' :: []) rest with
    | none => none
    | some (pre, post) =>
      match post.reverse with
      | ']' :: urlRev => some (num, pyStrip pre, pyStrip urlRev.reverse)
      | _ => none

/-- Embeds `re.match(r'^(\d+)\.\s*(.*)$', line)` together with the
`.strip()` the source applies to the captured text. -/
def matchItemNoUrl (line : Str) : Option (Str × Str) :=
  match parseNumDot line with
  | none => none
  | some (num, rest) => some (num, pyStrip rest)

/-- Embeds `TranslationProcessor.read_and_split_file`, with the file read
abstracted to its content: split on blank lines (`'\n\n'`), strip each
piece, keep the non-empty ones. -/
def read_and_split_file (content : Str) : List Str :=
  (split2 '\n' '\n' content).filterMap fun chunk =>
    if pyStrip chunk = [] then none else some (pyStrip chunk)

/-- Embeds `TranslationProcessor.parse_chunk_structure`: the first line (stripped)
is the title; each later non-empty stripped line is parsed as
`number. text [URL:url]` or else `number. text`; other lines are skipped. -/
def parse_chunk_structure (chunk : Str) : Str × List (Str × Str × Str) :=
  match splitCh '\n' chunk with
  | [] => ([], [])
  | first :: restLines =>
    let title := pyStrip first
    let items := restLines.foldl
      (fun acc rawLine =>
        let line := pyStrip rawLine
        if line = [] then acc
        else
          match matchItemWithUrl line with
          | some (n, t, u) => acc ++ [(n, t, u)]
          | none =>
            match matchItemNoUrl line with
            | some (n, t) => acc ++ [(n, t, [])]
            | none => acc)
      []
    (title, items)

/-- Insert into a Python-dict style association list: overwrite the value
in place if the key is present, append otherwise. -/
def dictInsert (m : List (Str × Str)) (k v : Str) : List (Str × Str) :=
  match m with
  | [] => [(k, v)]
  | (k2, v2) :: rest =>
    if k2 = k then (k, v) :: rest else (k2, v2) :: dictInsert rest k v

/-- Python `key in dict` / `dict[key]` on the association lists built by
`dictInsert` (keys are unique, so the first hit is the entry). -/
def dictGet (m : List (Str × Str)) (k : Str) : Option Str :=
  match m with
  | [] => none
  | (k2, v2) :: rest => if k2 = k then some v2 else dictGet rest k

/-- Embeds `TranslationProcessor.prepare_translation_batch`: render the items back
to `number. text` lines (urls stripped) and collect `number → url` for the
items with a non-empty url. -/
def prepare_translation_batch (items : List (Str × Str × Str)) :
    Str × List (Str × Str) :=
  let batch_lines := items.map fun it => it.1 ++ ('.' :: ' ' :: []) ++ it.2.1
  let url_mapping := items.foldl
    (fun m it => if it.2.2 ≠ [] then dictInsert m it.1 it.2.2 else m) []
  (pyJoin ('\n' :: []) batch_lines, url_mapping)

/-- Embeds `TranslationProcessor.format_translated_result`: reparse each stripped
non-empty line as `number. text` and append ` [URL:url]` when the number
is in the mapping; keep non-matching lines as stripped. -/
def format_translated_result (translated_text : Str)
    (url_mapping : List (Str × Str)) : Str :=
  let formatted_lines := (splitCh '\n' translated_text).filterMap fun rawLine =>
    let line := pyStrip rawLine
    if line = [] then none
    else
      match matchItemNoUrl line with
      | some (n, t) =>
        match dictGet url_mapping n with
        | some u =>
          some (n ++ ('.' :: ' ' :: []) ++ t ++ (' ' :: '[' :: 'U' :: 'R' :: 'L' :: ':' :: []) ++ u ++ (']' :: []))
        | none => some (n ++ ('.' :: ' ' :: []) ++ t)
      | none => some line
  pyJoin ('\n' :: []) formatted_lines

inductive ChunkStatus where
  | pending
  | processing
  | completed
  | failed
deriving DecidableEq, Repr

/-- The two hardcoded model identifiers `gemini-2.5-flash` (primary) and
`gemini-2.0-flash` (fallback). -/
inductive Model where
  | primary
  | fallback
deriving DecidableEq, Repr

/-- Outcome of one call to `translate_with_gemini`, as classified by the
`except` clauses of `process_chunk`: a translated text, a
`requests.HTTPError` carrying a status code (429 is the rate-limit case),
or any other exception (network failure, malformed response, ...). -/
inductive Outcome where
  | success (text : Str)
  | httpError (status : Nat)
  | otherError (msg : Str)
deriving DecidableEq, Repr

structure ChunkState where
  id : Str
  content : Str
  status : ChunkStatus := .pending
  model : Model := .primary
  retry_count : Nat := 0
  result : Option Str := none
  error : Option Str := none
  url_mapping : List (Str × Str) := []
deriving DecidableEq, Repr

/-- Result of running `process_chunk` to completion on one chunk:
the final `ChunkState`, how many translation attempts were made with each
model, every value assigned to `chunk_state.status` in order, and the
index of the next unconsumed translation outcome. -/
structure ProcResult where
  state : ChunkState
  primaryAttempts : Nat
  fallbackAttempts : Nat
  statusTrace : List ChunkStatus
  nextAttempt : Nat
deriving Repr

/-- Termination measure for the retry/fallback recursion of
`process_chunk`: switching primary → fallback resets `retry_count` to 0,
and on the fallback model every re-attempt increments `retry_count`,
which is capped by the `retry_count < 2` guards. -/
def procMeasure (m : Model) (rc : Nat) : Nat :=
  match m with
  | .primary => 4
  | .fallback => 3 - rc

/-- Embeds `TranslationProcessor.process_chunk`.  The sequence of outcomes of the
successive `translate_with_gemini` calls is the oracle `oracle`, consumed
from index `k` on (the call is made after `rate_limiter.acquire()`, whose
state is modelled separately with the rate limiter).  Each invocation
makes exactly one translation attempt; the local `time.sleep(60)` on a
primary 429 and the `initiate_cooldown` on a fallback 429 affect only
wall-clock/rate-limiter state, not the chunk state.  The thread-safe
recording of the terminal state in `self.results` is modelled in
`process_all_chunks`. -/
def process_chunk (oracle : Nat → Outcome) (k : Nat) (cs : ChunkState) :
    ProcResult :=
  let parsed := parse_chunk_structure cs.content
  let prep := prepare_translation_batch parsed.2
  let cs1 : ChunkState := { cs with url_mapping := prep.2 }
  let att : Nat × Nat := match cs1.model with
    | .primary => (1, 0)
    | .fallback => (0, 1)
  match oracle k with
  | .success t =>
    let translated_items := format_translated_result t prep.2
    let final_result := parsed.1 ++ '\n' :: translated_items
    ⟨{ cs1 with status := .completed, result := some final_result },
      att.1, att.2, [.completed], k + 1⟩
  | .httpError status =>
    if status = 429 then
      if cs1.model = Model.primary then
        let r := process_chunk oracle (k + 1)
          { cs1 with model := .fallback, retry_count := 0 }
        ⟨r.state, att.1 + r.primaryAttempts, att.2 + r.fallbackAttempts,
          r.statusTrace, r.nextAttempt⟩
      else
        if cs1.retry_count < 2 then
          let r := process_chunk oracle (k + 1)
            { cs1 with retry_count := cs1.retry_count + 1 }
          ⟨r.state, att.1 + r.primaryAttempts, att.2 + r.fallbackAttempts,
            r.statusTrace, r.nextAttempt⟩
        else
          let csf : ChunkState := { cs1 with
            status := .failed
            error := some ('H' :: 'T' :: 'T' :: 'P' :: ' ' :: Nat.toDigits 10 status) }
          ⟨csf, att.1, att.2, [.failed], k + 1⟩
    else
      let csf : ChunkState := { cs1 with
        status := .failed
        error := some ('H' :: 'T' :: 'T' :: 'P' :: ' ' :: Nat.toDigits 10 status) }
      ⟨csf, att.1, att.2, [.failed], k + 1⟩
  | .otherError msg =>
    let cs2 : ChunkState := { cs1 with status := .failed, error := some msg }
    if cs2.model ≠ .fallback ∧ cs2.retry_count < 1 then
      let r := process_chunk oracle (k + 1)
        { cs2 with model := .fallback, retry_count := 0 }
      ⟨r.state, att.1 + r.primaryAttempts, att.2 + r.fallbackAttempts,
        .failed :: r.statusTrace, r.nextAttempt⟩
    else if cs2.model = .fallback ∧ cs2.retry_count < 2 then
      let r := process_chunk oracle (k + 1)
        { cs2 with retry_count := cs2.retry_count + 1 }
      ⟨r.state, att.1 + r.primaryAttempts, att.2 + r.fallbackAttempts,
        .failed :: r.statusTrace, r.nextAttempt⟩
    else
      ⟨cs2, att.1, att.2, [.failed], k + 1⟩
termination_by procMeasure cs.model cs.retry_count
decreasing_by
· rename_i hm
  simp only [cs1] at hm
  simp only [hm, procMeasure]
  omega
· rename_i hm hrc
  simp only [cs1] at hm hrc
  rcases hcm : cs.model with hp | hf
  · exact absurd hcm hm
  · simp only [hcm, procMeasure]
    omega
· rename_i h
  simp only [cs2, cs1] at h
  rcases h with ⟨h1, -⟩
  rcases hcm : cs.model with hp | hf
  · simp only [hcm, procMeasure]
    omega
  · exact absurd hcm h1
· rename_i h
  simp only [cs2, cs1] at h
  simp only [h.1, procMeasure]
  have := h.2
  omega

/-- Decimal rendering of a natural number, `str(n)` in Python
(defined recursively for proofs; `Nat.toDigits 10` computes the same
string and is used where kernel evaluation is wanted). -/
def natDigits (n : Nat) : Str :=
  if n < 10 then [Nat.digitChar n]
  else natDigits (n / 10) ++ [Nat.digitChar (n % 10)]
decreasing_by
  exact Nat.div_lt_self (by omega) (by norm_num)

/-- Python `f"{i:03d}"`: decimal rendering left-padded with zeroes to
width 3. -/
def pad3 (n : Nat) : Str :=
  List.replicate (3 - (Nat.toDigits 10 n).length) '0' ++ Nat.toDigits 10 n

/-- The chunk id `f"chunk_{i:03d}"` assigned by `process_all_chunks` in
split order. -/
def chunkIdOf (i : Nat) : Str :=
  ('c' :: 'h' :: 'u' :: 'n' :: 'k' :: '_' :: []) ++ pad3 i

/-- Python `int(s)` on a string of decimal digits. -/
def pyInt (s : Str) : Nat :=
  s.foldl (fun a c => 10 * a + (c.toNat - 48)) 0

/-- The sort key `int(x[0].split('_')[1])` used by `write_output_files`
(well-defined on the `chunk_i` ids the pipeline creates). -/
def chunkIndex (idStr : Str) : Nat :=
  pyInt ((splitCh '_' idStr).getD 1 [])

/-- Embeds the `RateLimiter` state; timestamps and durations are rationals standing
for the float seconds of `time.time()`.  The `threading.Lock` is held for
the whole body of `acquire` and of `initiate_cooldown`, so their
executions serialize; they are modelled as atomic state transformers. -/
structure RateLimiter where
  request_interval : ℚ := 6
  last_request_time : ℚ := 0
  cooldown_until : ℚ := 0
deriving DecidableEq, Repr

/-- Embeds `RateLimiter.acquire`, executed under the lock.  `c` is the wall clock
at entry (`current_time = time.time()`); the cooldown sleep advances the
wall clock to `cooldown_until` if it has not passed; the rate-limit sleep
uses the stale `current_time` exactly as the source does; `eps ≥ 0` is the
drift between the end of the sleeps and the final `time.time()` that is
stored into `last_request_time` (sleeps may overshoot, reading the clock
takes time). -/
def RateLimiter.acquire (st : RateLimiter) (c eps : ℚ) : RateLimiter :=
  let w1 := if c < st.cooldown_until then st.cooldown_until else c
  let elapsed := c - st.last_request_time
  let w2 := if elapsed < st.request_interval
    then w1 + (st.request_interval - elapsed) else w1
  { st with last_request_time := w2 + eps }

/-- Embeds `RateLimiter.initiate_cooldown`, executed under the lock at wall-clock
time `now`: overwrites `cooldown_until` with `now + duration`. -/
def RateLimiter.initiate_cooldown (st : RateLimiter) (now duration : ℚ) :
    RateLimiter :=
  { st with cooldown_until := now + duration }

/-- Timestamps recorded into `last_request_time` by a serialized sequence
of `acquire` calls, each given by its entry time and drift. -/
def acquireRun (st : RateLimiter) : List (ℚ × ℚ) → List ℚ
  | [] => []
  | e :: rest =>
    let st2 := st.acquire e.1 e.2
    st2.last_request_time :: acquireRun st2 rest

/-- A physically possible serialized schedule of `acquire` calls: drifts
are non-negative, and each call enters no earlier than the previous call
returned (the lock is released at return, after `last_request_time` was
written at the then-current wall clock). -/
def validAcquireRun (st : RateLimiter) : List (ℚ × ℚ) → Prop
  | [] => True
  | e :: rest =>
    0 ≤ e.2 ∧ st.last_request_time ≤ e.1 ∧
      validAcquireRun (st.acquire e.1 e.2) rest

/-- Successive values of `cooldown_until` under a sequence of
`initiate_cooldown` calls at the given wall-clock times, each with the
60-second duration used at every call site of the source. -/
def cooldownRun (st : RateLimiter) : List ℚ → List ℚ
  | [] => []
  | t :: ts =>
    let st2 := st.initiate_cooldown t 60
    st2.cooldown_until :: cooldownRun st2 ts

/-- Embeds `TranslationProcessor.process_all_chunks`, with the input file
abstracted to its content and the translation capability to the outcome
oracle.  The worker pool drains the queue chunk by chunk; workers
interleave only through the rate limiter (modelled separately), so the
per-chunk outcomes and the aggregated results are those of the sequential
drain.  Every exception is caught inside `process_chunk` (and
`_process_queue_worker` guards the dequeue), so the embedding is a total
function: no input raises.  Returns the job result
`success_count > 0`, `total_chunks`, and the recorded results. -/
def process_all_chunks (oracle : Nat → Outcome) (content : Str) :
    Bool × Nat × List (Str × ChunkState) :=
  let chunks := read_and_split_file content
  let total_chunks := chunks.length
  if chunks.isEmpty then (false, total_chunks, [])
  else
    let states := ((List.range chunks.length).zip chunks).map
      (fun p => { id := chunkIdOf p.1, content := p.2 : ChunkState })
    let results := (states.foldl
      (fun (acc : Nat × List (Str × ChunkState)) st =>
        let r := process_chunk oracle acc.1 st
        (r.nextAttempt, acc.2 ++ [(r.state.id, r.state)]))
      (0, [])).2
    let success_count :=
      (results.filter (fun p => decide (p.2.status = ChunkStatus.completed))).length
    (decide (0 < success_count), total_chunks, results)

/-- Body of the `for chunk_id, chunk_state in sorted_results` loop of
`write_output_files` building `txt_content`: completed chunks with a
truthy (non-`None`, non-empty) result are appended, each followed by a
blank-line separator. -/
def txt_content (sorted_results : List (Str × ChunkState)) : Str :=
  sorted_results.foldl
    (fun acc p =>
      match p.2.status, p.2.result with
      | .completed, some r => if r ≠ [] then acc ++ r ++ ('\n' :: '\n' :: []) else acc
      | _, _ => acc)
    []

/-- The `sorted(self.results.items(), key=lambda x: int(x[0].split('_')[1]))`
of `write_output_files`: a stable sort by the numeric chunk index
(insertion sort is stable, like Python's sort). -/
def sortResultsByIdx (results : List (Str × ChunkState)) :
    List (Str × ChunkState) :=
  List.insertionSort (fun p q => chunkIndex p.1 ≤ chunkIndex q.1) results

/-- The text written to the `.txt` output file by `write_output_files`:
the joined completed results, with surrounding whitespace stripped
(`f.write(txt_content.strip())`). -/
def write_output_txt (results : List (Str × ChunkState)) : Str :=
  pyStrip (txt_content (sortResultsByIdx results))

/-- One step of the forward order `Pending → Processing → {Completed,
Failed}` on `status` values: from Pending anywhere, from Processing
anywhere but back to Pending, and no change at all once Completed or
Failed. -/
def statusStepOk : ChunkStatus → ChunkStatus → Bool
  | .pending, _ => true
  | .processing, s => decide (s ≠ .pending)
  | .completed, s => decide (s = .completed)
  | .failed, s => decide (s = .failed)

/-- A status history only moves forward when every consecutive pair of
assigned values is a forward step. -/
def forwardOnly : List ChunkStatus → Bool
  | [] => true
  | [_] => true
  | a :: b :: rest => statusStepOk a b && forwardOnly (b :: rest)

def fbBudget (m : Model) (rc : Nat) : Nat :=
  match m with
  | .primary => 3
  | .fallback => 3 - min rc 2

def pAtt (m : Model) : Nat :=
  match m with
  | .primary => 1
  | .fallback => 0

/-- The per-line body of `format_translated_result`, named for the proofs
below (definitionally the lambda in `format_translated_result`). -/
def fmtLine (url_mapping : List (Str × Str)) (rawLine : Str) : Option Str :=
  let line := pyStrip rawLine
  if line = [] then none
  else
    match matchItemNoUrl line with
    | some (n, t) =>
      match dictGet url_mapping n with
      | some u =>
        some (n ++ ('.' :: ' ' :: []) ++ t ++ (' ' :: '[' :: 'U' :: 'R' :: 'L' :: ':' :: []) ++ u ++ (']' :: []))
      | none => some (n ++ ('.' :: ' ' :: []) ++ t)
    | none => some line

/-- Whether the exact two-character sequence `ab` occurs in a string. -/
def hasPair (a b : Char) : Str → Bool
  | [] => false
  | [_] => false
  | c1 :: c2 :: rest => (c1 = a && c2 = b) || hasPair a b (c2 :: rest)

/-- The result text a chunk entry contributes to the output file, if any:
Completed status with a truthy (non-`None`, non-empty) result. -/
def resultOf (p : Str × ChunkState) : Option Str :=
  match p.2.status, p.2.result with
  | .completed, some r => if r ≠ [] then some r else none
  | _, _ => none

/-- Chunk states for the C5 witness run: chunk 0 completed with result
`B`, chunk 1 failed. -/
def c5state (i : Nat) : ChunkState :=
  if i = 0 then
    { id := chunkIdOf 0, content := [], status := .completed,
      result := some ('B' :: []) }
  else { id := chunkIdOf i, content := [], status := .failed }

theorem process_chunk_spec (oracle : Nat → Outcome) (k : Nat) (cs : ChunkState) :
    (process_chunk oracle k cs).primaryAttempts ≤ pAtt cs.model ∧
    (process_chunk oracle k cs).fallbackAttempts ≤ fbBudget cs.model cs.retry_count ∧
    ((process_chunk oracle k cs).state.status = .completed ∨
      (process_chunk oracle k cs).state.status = .failed) ∧
    ∃ pre, (process_chunk oracle k cs).statusTrace =
        pre ++ [(process_chunk oracle k cs).state.status] ∧
      ∀ s ∈ pre, s = ChunkStatus.failed := by
  induction k, cs using process_chunk.induct oracle with
  | case1 k cs t hx =>
    rw [process_chunk, hx]
    refine ⟨?_, ?_, by simp, [], by simp, by simp⟩
    · cases cs.model <;> simp [pAtt]
    · cases cs.model <;> (simp [fbBudget]; try omega)
  | case2 k cs parsed prep cs1 hm hx ih =>
    have hm2 : cs.model = Model.primary := hm
    rw [process_chunk, hx]
    simp only [cs1, prep, parsed] at ih ⊢
    obtain ⟨ih1, ih2, ih3, pre, ih4, ih5⟩ := ih
    simp only [hm2, reduceIte, pAtt, fbBudget] at ih1 ih2 ⊢
    refine ⟨by omega, by omega, ih3, pre, ih4, ih5⟩
  | case3 k cs parsed prep cs1 hm hrc hx ih =>
    have hm2 : cs.model = Model.fallback := by
      have h3 : ¬ cs.model = Model.primary := hm
      cases hc : cs.model
      · exact absurd hc h3
      · rfl
    have hrc2 : cs.retry_count < 2 := hrc
    rw [process_chunk, hx]
    simp only [cs1, prep, parsed] at ih ⊢
    simp only [hm2] at ih ⊢
    rw [if_neg (show ¬ (Model.fallback = Model.primary) by simp), if_pos hrc2]
    obtain ⟨ih1, ih2, ih3, pre, ih4, ih5⟩ := ih
    simp only [pAtt, fbBudget, if_true] at ih1 ih2 ⊢
    refine ⟨by omega, by omega, ih3, pre, ih4, ih5⟩
  | case4 k cs parsed prep cs1 hm hrc hx =>
    have hm2 : cs.model = Model.fallback := by
      have h3 : ¬ cs.model = Model.primary := hm
      cases hc : cs.model
      · exact absurd hc h3
      · rfl
    have hrc2 : ¬ cs.retry_count < 2 := hrc
    rw [process_chunk, hx]
    simp only [cs1, prep, parsed]
    simp only [hm2]
    rw [if_neg (show ¬ (Model.fallback = Model.primary) by simp), if_neg hrc2]
    simp only [pAtt, fbBudget, if_true]
    refine ⟨by omega, by omega, by simp, [], by simp, by simp⟩
  | case5 k cs st hx hne =>
    rw [process_chunk, hx]
    simp only [hne, reduceIte]
    refine ⟨?_, ?_, by simp, [], by simp, by simp⟩
    · cases cs.model <;> simp [pAtt]
    · cases cs.model <;> (simp [fbBudget]; try omega)
  | case6 k cs parsed prep cs1 m hx cs2 hcond ih =>
    have hcond2 : cs.model ≠ Model.fallback ∧ cs.retry_count < 1 := hcond
    have hm2 : cs.model = Model.primary := by
      cases hc : cs.model
      · rfl
      · exact absurd hc hcond2.1
    rw [process_chunk, hx]
    simp only [cs2, cs1, prep, parsed] at ih ⊢
    simp only [hm2] at ih ⊢
    rw [if_pos (show Model.primary ≠ Model.fallback ∧ cs.retry_count < 1 from ⟨by simp, hcond2.2⟩)]
    obtain ⟨ih1, ih2, ih3, pre, ih4, ih5⟩ := ih
    simp only [pAtt, fbBudget] at ih1 ih2 ⊢
    refine ⟨by omega, by omega, ih3, ChunkStatus.failed :: pre, by simp [ih4], ?_⟩
    intro s hs
    rcases List.mem_cons.mp hs with h | h
    · exact h
    · exact ih5 s h
  | case7 k cs parsed prep cs1 m hx cs2 hneg hcond ih =>
    have hcond2 : cs.model = Model.fallback ∧ cs.retry_count < 2 := hcond
    rw [process_chunk, hx]
    simp only [cs2, cs1, prep, parsed] at ih ⊢
    simp only [hcond2.1] at ih ⊢
    rw [if_neg (show ¬ (Model.fallback ≠ Model.fallback ∧ cs.retry_count < 1) from fun h => h.1 rfl)]
    rw [if_pos (show True ∧ cs.retry_count < 2 from ⟨trivial, hcond2.2⟩)]
    obtain ⟨ih1, ih2, ih3, pre, ih4, ih5⟩ := ih
    simp only [pAtt, fbBudget] at ih1 ih2 ⊢
    have hrc := hcond2.2
    refine ⟨by omega, by omega, ih3, ChunkStatus.failed :: pre, by simp [ih4], ?_⟩
    intro s hs
    rcases List.mem_cons.mp hs with h | h
    · exact h
    · exact ih5 s h
  | case8 k cs parsed prep cs1 m hx cs2 hneg1 hneg2 =>
    have hn1 : ¬ (cs.model ≠ Model.fallback ∧ cs.retry_count < 1) := hneg1
    have hn2 : ¬ (cs.model = Model.fallback ∧ cs.retry_count < 2) := hneg2
    rw [process_chunk, hx]
    simp only [cs2, cs1, prep, parsed]
    rw [if_neg hn1, if_neg hn2]
    refine ⟨?_, ?_, by simp, [], by simp, by simp⟩
    · cases cs.model <;> simp [pAtt]
    · cases cs.model <;> (simp [fbBudget]; try omega)

/-- C1: starting from a fresh chunk state (primary model, zero retries),
`process_chunk` terminates in a terminal status (Completed or Failed) with
at most 1 translation attempt on the primary model, at most 3 on the
fallback model, and at most 4 in total, for every sequence of translation
outcomes. -/
theorem process_chunk_attempt_bound (oracle : Nat → Outcome) (k : Nat)
    (cs : ChunkState) (hm : cs.model = Model.primary) :
    (process_chunk oracle k cs).primaryAttempts ≤ 1 ∧
    (process_chunk oracle k cs).fallbackAttempts ≤ 3 ∧
    (process_chunk oracle k cs).primaryAttempts +
      (process_chunk oracle k cs).fallbackAttempts ≤ 4 ∧
    ((process_chunk oracle k cs).state.status = ChunkStatus.completed ∨
      (process_chunk oracle k cs).state.status = ChunkStatus.failed) := by
  obtain ⟨h1, h2, h3, -⟩ := process_chunk_spec oracle k cs
  rw [hm] at h1 h2
  simp only [pAtt, fbBudget] at h1 h2
  exact ⟨h1, h2, by omega, h3⟩

/-- Witness for C1 at a concrete input: a fresh chunk whose every
translation attempt is rate-limited. -/
theorem process_chunk_attempt_bound_witness :
    ({ id := [], content := [] : ChunkState }).model = Model.primary ∧
    ((process_chunk (fun _ => Outcome.httpError 429) 0
        { id := [], content := [] }).primaryAttempts ≤ 1 ∧
      (process_chunk (fun _ => Outcome.httpError 429) 0
        { id := [], content := [] }).fallbackAttempts ≤ 3 ∧
      (process_chunk (fun _ => Outcome.httpError 429) 0
          { id := [], content := [] }).primaryAttempts +
        (process_chunk (fun _ => Outcome.httpError 429) 0
          { id := [], content := [] }).fallbackAttempts ≤ 4 ∧
      ((process_chunk (fun _ => Outcome.httpError 429) 0
          { id := [], content := [] }).state.status = ChunkStatus.completed ∨
        (process_chunk (fun _ => Outcome.httpError 429) 0
          { id := [], content := [] }).state.status = ChunkStatus.failed)) :=
  ⟨rfl, process_chunk_attempt_bound (fun _ => Outcome.httpError 429) 0
    { id := [], content := [] } rfl⟩

/-- C3 (amended): during `process_chunk` the status is never set to
Processing; every status assignment before the last one is a transient
Failed (set on the general-error path just before a re-attempt), and the
last assignment is the terminal status (Completed or Failed) of the
returned state, after which it is never changed. -/
theorem process_chunk_status_trace (oracle : Nat → Outcome) (k : Nat)
    (cs : ChunkState) :
    ((process_chunk oracle k cs).state.status = ChunkStatus.completed ∨
      (process_chunk oracle k cs).state.status = ChunkStatus.failed) ∧
    (∃ pre, (process_chunk oracle k cs).statusTrace =
        pre ++ [(process_chunk oracle k cs).state.status] ∧
      ∀ s ∈ pre, s = ChunkStatus.failed) ∧
    ChunkStatus.processing ∉ (process_chunk oracle k cs).statusTrace := by
  obtain ⟨-, -, h3, pre, h4, h5⟩ := process_chunk_spec oracle k cs
  refine ⟨h3, ⟨pre, h4, h5⟩, ?_⟩
  rw [h4]
  intro hmem
  rcases List.mem_append.mp hmem with hp | hp
  · have h6 := h5 _ hp
    exact absurd h6 (by simp)
  · have h6 := List.mem_singleton.mp hp
    rcases h3 with h7 | h7 <;> rw [← h6] at h7 <;> exact absurd h7 (by simp)

/-- Helper for the C3 counterexample: when the first attempt raises a
general error and the re-attempt with the fallback model succeeds, the
recorded status history is Failed followed by Completed. -/
theorem process_chunk_trace_err_then_success (oracle : Nat → Outcome)
    (k : Nat) (cs : ChunkState) (m t : Str)
    (h1 : oracle k = Outcome.otherError m)
    (h2 : oracle (k + 1) = Outcome.success t)
    (hm : cs.model = Model.primary) (hrc : cs.retry_count = 0) :
    (process_chunk oracle k cs).statusTrace =
      [ChunkStatus.failed, ChunkStatus.completed] := by
  rw [process_chunk, h1]
  simp only [hm, hrc]
  rw [if_pos (show Model.primary ≠ Model.fallback ∧ (0 : Nat) < 1 from ⟨by simp, by omega⟩)]
  rw [process_chunk, h2]

/-- C3 counterexample: with a general error on the first attempt and a
successful fallback re-attempt, the status history is
Pending, Failed, Completed — the status is set to a (non-terminal) Failed
and later changed to Completed, and Processing is never entered, so the
status does not move forward through
Pending → Processing → {Completed, Failed}. -/
theorem process_chunk_status_not_forward :
    forwardOnly (ChunkStatus.pending ::
      (process_chunk
        (fun n => if n = 0 then Outcome.otherError [] else Outcome.success [])
        0 { id := [], content := [] }).statusTrace) = false := by
  rw [process_chunk_trace_err_then_success
    (fun n => if n = 0 then Outcome.otherError [] else Outcome.success [])
    0 { id := [], content := [] } [] [] rfl rfl rfl rfl]
  rfl

/-- Helper: one `acquire` advances `last_request_time` by at least
`request_interval` past its previous value, given the call enters no
earlier than the previous recorded time. -/
theorem acquire_step_gap (st : RateLimiter) (c eps : ℚ)
    (heps : 0 ≤ eps) (_hc : st.last_request_time ≤ c) :
    st.last_request_time + st.request_interval ≤
      (st.acquire c eps).last_request_time := by
  unfold RateLimiter.acquire
  dsimp only
  rcases le_or_lt st.request_interval (c - st.last_request_time) with h | h
  · rw [if_neg (not_lt.mpr h)]
    rcases lt_or_le c st.cooldown_until with h2 | h2
    · rw [if_pos h2]
      nlinarith
    · rw [if_neg (not_lt.mpr h2)]
      nlinarith
  · rw [if_pos h]
    rcases lt_or_le c st.cooldown_until with h2 | h2
    · rw [if_pos h2]
      nlinarith
    · rw [if_neg (not_lt.mpr h2)]
      nlinarith

/-- Helper: `acquire` does not change the interval or the cooldown. -/
theorem acquire_keeps_fields (st : RateLimiter) (c eps : ℚ) :
    (st.acquire c eps).request_interval = st.request_interval ∧
    (st.acquire c eps).cooldown_until = st.cooldown_until := by
  unfold RateLimiter.acquire
  exact ⟨rfl, rfl⟩

/-- Helper: along a valid serialized schedule, consecutive recorded
timestamps (starting from the state's current one) are at least
`request_interval` apart. -/
theorem acquireRun_chain (st : RateLimiter) (evs : List (ℚ × ℚ))
    (hv : validAcquireRun st evs) :
    List.Chain' (fun a b => a + st.request_interval ≤ b)
      (st.last_request_time :: acquireRun st evs) := by
  induction evs generalizing st with
  | nil => simp [acquireRun]
  | cons e rest ih =>
    obtain ⟨heps, hc, hv2⟩ := hv
    have hgap := acquire_step_gap st e.1 e.2 heps hc
    have hkeep := acquire_keeps_fields st e.1 e.2
    have htail := ih (st.acquire e.1 e.2) hv2
    rw [hkeep.1] at htail
    exact List.Chain'.cons hgap htail

/-- C4: under the mutual exclusion the lock provides (the whole body of
`acquire`, sleeps included, runs with the lock held, so concurrent calls
serialize and each call enters no earlier than the previous call
returned), no two `acquire` calls record `last_request_time` values less
than `request_interval` apart: any two recorded timestamps of the run
differ by at least `request_interval`. -/
theorem acquire_no_two_returns_close (st : RateLimiter)
    (evs : List (ℚ × ℚ)) (hI : 0 ≤ st.request_interval)
    (hv : validAcquireRun st evs) :
    List.Pairwise (fun a b => a + st.request_interval ≤ b)
      (acquireRun st evs) := by
  have hchain := (acquireRun_chain st evs hv).tail
  have htrans : IsTrans ℚ (fun a b : ℚ => a + st.request_interval ≤ b) := by
    refine ⟨fun a b c hab hbc => ?_⟩
    have hbc2 : b ≤ c := le_trans (by linarith) hbc
    linarith
  exact (@List.chain'_iff_pairwise ℚ _ htrans _).mp hchain

/-- Witness for C4 at a concrete schedule: two calls entering at times 0
and 7 against the default limiter state. -/
theorem acquire_no_two_returns_close_witness :
    0 ≤ ({} : RateLimiter).request_interval ∧
    validAcquireRun {} [(0, 0), (7, 0)] ∧
    List.Pairwise (fun a b => a + ({} : RateLimiter).request_interval ≤ b)
      (acquireRun {} [(0, 0), (7, 0)]) := by
  refine ⟨by norm_num, ?_, ?_⟩
  · refine ⟨le_refl 0, le_refl 0, ⟨by norm_num, ?_, trivial⟩⟩
    norm_num [RateLimiter.acquire]
  · refine acquire_no_two_returns_close {} [(0, 0), (7, 0)] (by norm_num) ?_
    refine ⟨le_refl 0, le_refl 0, ⟨by norm_num, ?_, trivial⟩⟩
    norm_num [RateLimiter.acquire]

/-- C8 counterexample: `initiate_cooldown` overwrites `cooldown_until`
with `now + duration` instead of taking a maximum, so with non-negative
durations (60 then 0) and non-decreasing call times (0 then 1) the second
call moves `cooldown_until` backward from 60 to 1. -/
theorem initiate_cooldown_not_monotone :
    (0 : ℚ) ≤ 60 ∧ (0 : ℚ) ≤ 0 ∧ (0 : ℚ) ≤ 1 ∧
    ((({} : RateLimiter).initiate_cooldown 0 60).initiate_cooldown 1 0).cooldown_until <
      (({} : RateLimiter).initiate_cooldown 0 60).cooldown_until := by
  norm_num [RateLimiter.initiate_cooldown]

/-- C8 (amended): `cooldown_until` is non-decreasing across a run of
`initiate_cooldown` calls when every call uses the same 60-second
duration (as every call site of the source does) and the call times are
non-decreasing and do not precede the pending cooldown by more than the
duration. -/
theorem cooldownRun_monotone (st : RateLimiter) (ts : List ℚ)
    (hts : List.Chain' (· ≤ ·) ts)
    (hst : ∀ t0, ts.head? = some t0 → st.cooldown_until ≤ t0 + 60) :
    List.Chain' (· ≤ ·) (st.cooldown_until :: cooldownRun st ts) := by
  induction ts generalizing st with
  | nil => simp [cooldownRun]
  | cons t ts ih =>
    have h1 : st.cooldown_until ≤ t + 60 := hst t rfl
    refine List.Chain'.cons h1 ?_
    have h2 := ih (st.initiate_cooldown t 60) (hts.tail) ?_
    · exact h2
    · intro t1 ht1
      have hle : t ≤ t1 := by
        cases ts with
        | nil => cases ht1
        | cons t2 ts2 =>
          have he : t2 = t1 := by simpa using ht1
          have h3 := (List.chain'_cons.mp hts).1
          rw [he] at h3
          exact h3
      simp only [RateLimiter.initiate_cooldown]
      linarith

/-- Witness for C8's amended theorem at a concrete run: two cooldown
calls at times 0 and 5 from the initial limiter state. -/
theorem cooldownRun_monotone_witness :
    List.Chain' (· ≤ ·) [(0 : ℚ), 5] ∧
    (∀ t0, List.head? [(0 : ℚ), 5] = some t0 →
      ({} : RateLimiter).cooldown_until ≤ t0 + 60) ∧
    List.Chain' (· ≤ ·)
      (({} : RateLimiter).cooldown_until :: cooldownRun {} [(0 : ℚ), 5]) := by
  refine ⟨?_, ?_, cooldownRun_monotone {} [(0 : ℚ), 5] ?_ ?_⟩
  · norm_num
  · intro t0 h
    simp at h
    rw [← h]
    norm_num
  · norm_num
  · intro t0 h
    simp at h
    rw [← h]
    norm_num

/-- Expresses `pyStrip` in terms of Mathlib's `List.rdropWhile`. -/
theorem pyStrip_eq_rdropWhile (s : Str) :
    pyStrip s = List.rdropWhile isPySpace (s.dropWhile isPySpace) := rfl

/-- A stripped string does not change under another left trim. -/
theorem dropWhile_pyStrip (s : Str) :
    (pyStrip s).dropWhile isPySpace = pyStrip s := by
  rw [pyStrip_eq_rdropWhile, List.dropWhile_eq_self_iff]
  intro hl
  have hpre := List.rdropWhile_prefix isPySpace (s.dropWhile isPySpace)
  have hlen : 0 < (s.dropWhile isPySpace).length :=
    lt_of_lt_of_le hl hpre.length_le
  have hget : (List.rdropWhile isPySpace (s.dropWhile isPySpace)).get ⟨0, hl⟩ =
      (s.dropWhile isPySpace).get ⟨0, hlen⟩ := by
    simp only [List.get_eq_getElem]
    exact List.IsPrefix.getElem hpre hl
  rw [hget]
  exact List.dropWhile_get_zero_not isPySpace s hlen

/-- Python `strip` is idempotent. -/
theorem pyStrip_idem (s : Str) : pyStrip (pyStrip s) = pyStrip s := by
  rw [pyStrip_eq_rdropWhile (pyStrip s), dropWhile_pyStrip,
    pyStrip_eq_rdropWhile s, List.rdropWhile_idempotent]

/-- Characters of a stripped string come from the original. -/
theorem mem_of_mem_pyStrip {c : Char} {s : Str} (h : c ∈ pyStrip s) : c ∈ s := by
  rw [pyStrip_eq_rdropWhile] at h
  exact (List.dropWhile_suffix isPySpace).subset
    (( List.rdropWhile_prefix isPySpace _).subset h)

/-- A trim-stable string is stable under the left trim alone. -/
theorem dropWhile_eq_self_of_pyStrip {s : Str} (h : pyStrip s = s) :
    s.dropWhile isPySpace = s := by
  have hsuf := List.dropWhile_suffix (l := s) isPySpace
  refine hsuf.eq_of_length ?_
  have h1 : (pyStrip s).length ≤ (s.dropWhile isPySpace).length :=
    ( List.rdropWhile_prefix isPySpace _).length_le
  have h2 : (s.dropWhile isPySpace).length ≤ s.length := hsuf.length_le
  rw [h] at h1
  omega

/-- A trim-stable string is stable under the right trim alone. -/
theorem rdropWhile_eq_self_of_pyStrip {s : Str} (h : pyStrip s = s) :
    List.rdropWhile isPySpace s = s := by
  have := pyStrip_eq_rdropWhile s
  rw [dropWhile_eq_self_of_pyStrip h] at this
  rw [← this, h]

/-- The splitter `splitCh` never returns the empty list of pieces. -/
theorem splitCh_ne_nil (sep : Char) (s : Str) : splitCh sep s ≠ [] := by
  induction s with
  | nil => simp [splitCh]
  | cons c rest ih =>
    by_cases hc : c = sep
    · simp [splitCh, hc]
    · simp only [splitCh, hc, if_false]
      cases hsp : splitCh sep rest with
      | nil => simp
      | cons r rs => simp

/-- No piece of `splitCh sep s` contains the separator. -/
theorem mem_splitCh_not_sep (sep : Char) (s : Str) :
    ∀ l ∈ splitCh sep s, sep ∉ l := by
  induction s with
  | nil =>
    intro l hl
    simp [splitCh] at hl
    simp [hl]
  | cons c rest ih =>
    intro l hl
    by_cases hc : c = sep
    · rw [splitCh, if_pos hc] at hl
      rcases List.mem_cons.mp hl with h | h
      · simp [h]
      · exact ih l h
    · rw [splitCh, if_neg hc] at hl
      cases hsp : splitCh sep rest with
      | nil => exact absurd hsp (splitCh_ne_nil sep rest)
      | cons r rs =>
        rw [hsp] at hl
        rcases List.mem_cons.mp hl with h | h
        · rw [h]
          intro hmem
          rcases List.mem_cons.mp hmem with h2 | h2
          · exact hc h2.symm
          · exact ih r (by rw [hsp]; exact List.mem_cons_self r rs) h2
        · exact ih l (by rw [hsp]; exact List.mem_cons_of_mem r h)

/-- Characters of the pieces of `splitCh` come from the split string. -/
theorem mem_of_mem_splitCh (sep : Char) (s : Str) :
    ∀ l ∈ splitCh sep s, ∀ c ∈ l, c ∈ s := by
  induction s with
  | nil =>
    intro l hl c hc
    simp [splitCh] at hl
    rw [hl] at hc
    cases hc
  | cons a rest ih =>
    intro l hl c hc
    by_cases ha : a = sep
    · rw [splitCh, if_pos ha] at hl
      rcases List.mem_cons.mp hl with h | h
      · rw [h] at hc
        cases hc
      · exact List.mem_cons_of_mem a (ih l h c hc)
    · rw [splitCh, if_neg ha] at hl
      cases hsp : splitCh sep rest with
      | nil => exact absurd hsp (splitCh_ne_nil sep rest)
      | cons r rs =>
        rw [hsp] at hl
        rcases List.mem_cons.mp hl with h | h
        · rw [h] at hc
          rcases List.mem_cons.mp hc with h2 | h2
          · rw [h2]
            exact List.mem_cons_self a rest
          · exact List.mem_cons_of_mem a
              (ih r (by rw [hsp]; exact List.mem_cons_self r rs) c h2)
        · exact List.mem_cons_of_mem a (ih l (by rw [hsp]; exact List.mem_cons_of_mem r h) c hc)

/-- A separator-free string splits into itself. -/
theorem splitCh_no_sep (sep : Char) (s : Str) (h : sep ∉ s) :
    splitCh sep s = [s] := by
  induction s with
  | nil => rfl
  | cons c rest ih =>
    have hc : ¬ c = sep := fun he => h (by rw [he]; exact List.mem_cons_self _ _)
    have hrest : sep ∉ rest := fun hm => h (List.mem_cons_of_mem c hm)
    rw [splitCh, if_neg hc, ih hrest]

/-- Splitting at an explicit separator occurrence. -/
theorem splitCh_append_sep (sep : Char) (x z : Str) (hx : sep ∉ x) :
    splitCh sep (x ++ sep :: z) = x :: splitCh sep z := by
  induction x with
  | nil => simp [splitCh]
  | cons c x2 ih =>
    have hc : ¬ c = sep := fun he => hx (by rw [he]; exact List.mem_cons_self _ _)
    have hx2 : sep ∉ x2 := fun hm => hx (List.mem_cons_of_mem c hm)
    rw [List.cons_append, splitCh, if_neg hc, ih hx2]

/-- Splitting a joined list of separator-free pieces recovers the pieces. -/
theorem splitCh_pyJoin (sep : Char) (ls : List Str) (hne : ls ≠ [])
    (h : ∀ l ∈ ls, sep ∉ l) : splitCh sep (pyJoin [sep] ls) = ls := by
  induction ls with
  | nil => exact absurd rfl hne
  | cons x rest ih =>
    cases rest with
    | nil =>
      rw [pyJoin]
      exact splitCh_no_sep sep x (h x (List.mem_cons_self _ _))
    | cons y r2 =>
      rw [pyJoin]
      have hx : sep ∉ x := h x (List.mem_cons_self _ _)
      have hj : x ++ [sep] ++ pyJoin [sep] (y :: r2) =
          x ++ sep :: pyJoin [sep] (y :: r2) := by simp
      rw [hj, splitCh_append_sep sep x _ hx,
        ih (by simp) (fun l hl => h l (List.mem_cons_of_mem x hl))]

/-- Decimal digits are not Python whitespace. -/
theorem isPySpace_eq_false_of_digit {c : Char} (h : c.isDigit = true) :
    isPySpace c = false := by
  unfold isPySpace
  by_contra hcon
  simp only [Bool.not_eq_false, Bool.or_eq_true, decide_eq_true_eq] at hcon
  rcases hcon with ((((h1 | h1) | h1) | h1) | h1) | h1 <;> rw [h1] at h <;>
    simp [Char.isDigit] at h

/-- A string with a non-whitespace head and a non-whitespace last
character is trim-stable. -/
theorem pyStrip_eq_self_of_ends {s : Str}
    (hh : ∀ c, s.head? = some c → isPySpace c = false)
    (hl : ∀ c, s.getLast? = some c → isPySpace c = false) :
    pyStrip s = s := by
  have h1 : s.dropWhile isPySpace = s := by
    cases s with
    | nil => rfl
    | cons c t =>
      rw [List.dropWhile_cons, hh c rfl]
      simp
  rw [pyStrip_eq_rdropWhile, h1, List.rdropWhile_eq_self_iff]
  intro hne
  have h2 := hl (s.getLast hne) (List.getLast?_eq_getLast_of_ne_nil hne)
  simp [h2]

/-- Left-trimming absorbs a whitespace head. -/
theorem pyStrip_cons_ws {c : Char} (t : Str) (hc : isPySpace c = true) :
    pyStrip (c :: t) = pyStrip t := by
  rw [pyStrip_eq_rdropWhile, pyStrip_eq_rdropWhile, List.dropWhile_cons, hc]
  simp

/-- Taking leading digits across an all-digit prefix followed by a dot. -/
theorem takeWhile_digits_append (n z : Str) (hn : ∀ c ∈ n, c.isDigit = true) :
    (n ++ '.' :: z).takeWhile Char.isDigit = n ∧
    (n ++ '.' :: z).dropWhile Char.isDigit = '.' :: z := by
  induction n with
  | nil =>
    constructor
    · rw [List.nil_append, List.takeWhile_cons,
        show ('.' : Char).isDigit = false from by decide]
      simp
    · rw [List.nil_append, List.dropWhile_cons,
        show ('.' : Char).isDigit = false from by decide]
      simp
  | cons c n2 ih =>
    have hc : c.isDigit = true := hn c (List.mem_cons_self _ _)
    have hrest := ih (fun d hd => hn d (List.mem_cons_of_mem c hd))
    constructor
    · rw [List.cons_append, List.takeWhile_cons, hc]
      simp only [if_true]
      rw [hrest.1]
    · rw [List.cons_append, List.dropWhile_cons, hc]
      simp only [if_true]
      rw [hrest.2]

/-- Structure of a successful `parseNumDot`. -/
theorem parseNumDot_some {l n rest : Str} (h : parseNumDot l = some (n, rest)) :
    l = n ++ '.' :: rest ∧ n ≠ [] ∧ ∀ c ∈ n, c.isDigit = true := by
  unfold parseNumDot at h
  by_cases he : (l.takeWhile Char.isDigit).isEmpty
  · simp [he] at h
  · simp only [he, Bool.false_eq_true, if_false] at h
    split at h
    · rename_i tail heq
      simp only [Option.some.injEq, Prod.mk.injEq] at h
      obtain ⟨hn, ht⟩ := h
      refine ⟨?_, ?_, ?_⟩
      · rw [← hn, ← ht, ← heq, List.takeWhile_append_dropWhile]
      · rw [← hn]
        intro hcon
        rw [hcon] at he
        simp at he
      · intro d hd
        rw [← hn] at hd
        exact List.mem_takeWhile_imp hd
    · cases h
  
/-- Evaluating `parseNumDot` on a rebuilt `digits ++ dot ++ rest` string. -/
theorem parseNumDot_rebuild (n z : Str) (hne : n ≠ [])
    (hn : ∀ c ∈ n, c.isDigit = true) :
    parseNumDot (n ++ '.' :: z) = some (n, z) := by
  unfold parseNumDot
  obtain ⟨h1, h2⟩ := takeWhile_digits_append n z hn
  rw [h1, h2]
  simp [hne]

theorem format_translated_result_eq (t : Str) (m : List (Str × Str)) :
    format_translated_result t m =
      pyJoin ('\n' :: []) ((splitCh '\n' t).filterMap (fmtLine m)) := rfl

/-- A string whose head is not whitespace is stable under the left trim. -/
theorem dropWhile_eq_self_of_head {s : Str}
    (hh : ∀ c, s.head? = some c → isPySpace c = false) :
    s.dropWhile isPySpace = s := by
  cases s with
  | nil => rfl
  | cons c t =>
    rw [List.dropWhile_cons, hh c rfl]
    simp

/-- Evaluating `matchItemNoUrl` on a rebuilt `digits. text` line. -/
theorem matchItemNoUrl_rebuild (n z : Str) (hne : n ≠ [])
    (hn : ∀ c ∈ n, c.isDigit = true) :
    matchItemNoUrl (n ++ '.' :: z) = some (n, pyStrip z) := by
  unfold matchItemNoUrl
  rw [parseNumDot_rebuild n z hne hn]

/-- With the empty url mapping, reprocessing a line that
`format_translated_result` emitted reproduces it unchanged. -/
theorem fmtLine_empty_stable {l out : Str} (h : fmtLine [] l = some out) :
    fmtLine [] out = some out := by
  unfold fmtLine at h ⊢
  by_cases hb : pyStrip l = []
  · simp [hb] at h
  · simp only [hb, if_false] at h
    cases hm : matchItemNoUrl (pyStrip l) with
    | none =>
      rw [hm] at h
      have hout : out = pyStrip l := by
        simpa using h.symm
      have hps : pyStrip out = pyStrip l := by
        rw [hout, pyStrip_idem]
      rw [hps, if_neg hb, hm, hout]
    | some p =>
      obtain ⟨n, t2⟩ := p
      rw [hm] at h
      have hout : out = n ++ ('.' :: ' ' :: []) ++ t2 := by
        simpa [dictGet] using h.symm
      unfold matchItemNoUrl at hm
      cases hp : parseNumDot (pyStrip l) with
      | none => rw [hp] at hm; cases hm
      | some q =>
        obtain ⟨n2, rest⟩ := q
        rw [hp] at hm
        simp only [Option.some.injEq, Prod.mk.injEq] at hm
        obtain ⟨hn2, ht2⟩ := hm
        subst hn2
        obtain ⟨hsplit, hnne, hdig⟩ := parseNumDot_some hp
        obtain ⟨c0, ntail, hcn⟩ : ∃ c0 ntail, n2 = c0 :: ntail := by
          cases n2 with
          | nil => exact absurd rfl hnne
          | cons a b => exact ⟨a, b, rfl⟩
        have hc0 : c0.isDigit = true := by
          rw [hcn] at hdig
          exact hdig c0 (List.mem_cons_self _ _)
        have hhead : ∀ c, out.head? = some c → isPySpace c = false := by
          intro c hc
          rw [hout, hcn] at hc
          simp only [List.cons_append, List.head?_cons, Option.some.injEq] at hc
          rw [← hc]
          exact isPySpace_eq_false_of_digit hc0
        by_cases ht2e : t2 = []
    -- empty translated text after the number: the emitted line ends in
    -- a space that a reapplication strips and re-appends identically
        · have hout2 : out = (n2 ++ ('.' :: [])) ++ (' ' :: []) := by
            rw [hout, ht2e]
            simp
          have hstrip : pyStrip out = n2 ++ ('.' :: []) := by
            rw [pyStrip_eq_rdropWhile, dropWhile_eq_self_of_head hhead, hout2,
              List.rdropWhile_concat_pos _ _ _ (by decide),
              List.rdropWhile_concat_neg _ _ '.' (by decide)]
          have hne2 : pyStrip out ≠ [] := by
            rw [hstrip]
            simp
          rw [if_neg hne2, hstrip,
            show n2 ++ ('.' :: []) = n2 ++ '.' :: ([] : Str) by simp,
            matchItemNoUrl_rebuild n2 [] hnne hdig]
          rw [hout, ht2e]
          simp [dictGet, pyStrip]
        · have hts : pyStrip t2 = t2 := by
            rw [← ht2]
            exact pyStrip_idem rest
          have hlast : ∀ c, out.getLast? = some c → isPySpace c = false := by
            intro c hc
            rw [hout, List.append_assoc,
              List.getLast?_append_of_ne_nil _ (by simp [ht2e])] at hc
            rw [List.getLast?_append_of_ne_nil _ ht2e] at hc
            have hrd := rdropWhile_eq_self_of_pyStrip hts
            have := (List.rdropWhile_eq_self_iff).mp hrd ht2e
            rw [List.getLast?_eq_getLast_of_ne_nil ht2e] at hc
            have hceq : t2.getLast ht2e = c := by simpa using hc
            rw [← hceq]
            simp only [Bool.not_eq_true] at this
            exact this
          have hstrip : pyStrip out = out := pyStrip_eq_self_of_ends hhead hlast
          have hne2 : pyStrip out ≠ [] := by
            rw [hstrip, hout, hcn]
            simp
          rw [if_neg hne2, hstrip]
          have hout3 : out = n2 ++ '.' :: (' ' :: t2) := by
            rw [hout]
            simp
          rw [hout3, matchItemNoUrl_rebuild n2 (' ' :: t2) hnne hdig,
            pyStrip_cons_ws t2 (by decide), hts]
          simp [dictGet]

/-- Lines emitted by `format_translated_result` contain no newline when the
input line contains none. -/
theorem fmtLine_no_nl {m : List (Str × Str)} {l out : Str}
    (hm : ∀ p ∈ m, ('\n' : Char) ∉ p.2) (hl : ('\n' : Char) ∉ l)
    (h : fmtLine m l = some out) : ('\n' : Char) ∉ out := by
  unfold fmtLine at h
  by_cases hb : pyStrip l = []
  · simp [hb] at h
  · simp only [hb, if_false] at h
    have hstr : ('\n' : Char) ∉ pyStrip l := fun hmem => hl (mem_of_mem_pyStrip hmem)
    cases hmu : matchItemNoUrl (pyStrip l) with
    | none =>
      rw [hmu] at h
      have : out = pyStrip l := by simpa using h.symm
      rw [this]
      exact hstr
    | some p =>
      obtain ⟨n, t2⟩ := p
      rw [hmu] at h
      unfold matchItemNoUrl at hmu
      cases hp : parseNumDot (pyStrip l) with
      | none => rw [hp] at hmu; cases hmu
      | some q =>
        obtain ⟨n2, rest⟩ := q
        rw [hp] at hmu
        simp only [Option.some.injEq, Prod.mk.injEq] at hmu
        obtain ⟨hn2, ht2⟩ := hmu
        subst hn2
        obtain ⟨hsplit, -, -⟩ := parseNumDot_some hp
        dsimp only at h
        have hnmem : ('\n' : Char) ∉ n2 := by
          intro hmem
          exact hstr (by rw [hsplit]; exact List.mem_append.mpr (Or.inl hmem))
        have htmem : ('\n' : Char) ∉ t2 := by
          intro hmem
          rw [← ht2] at hmem
          have := mem_of_mem_pyStrip hmem
          exact hstr (by
            rw [hsplit]
            exact List.mem_append.mpr (Or.inr (List.mem_cons_of_mem '.' this)))
        cases hd : dictGet m n2 with
        | none =>
          rw [hd] at h
          have hoe : out = n2 ++ ('.' :: ' ' :: []) ++ t2 := by simpa using h.symm
          rw [hoe]
          intro hmem
          rcases List.mem_append.mp hmem with h2 | h2
          · rcases List.mem_append.mp h2 with h3 | h3
            · exact hnmem h3
            · simp at h3
          · exact htmem h2
        | some u =>
          rw [hd] at h
          have humem : ('\n' : Char) ∉ u := by
            have : (n2, u) ∈ m := by
              clear h hp hsplit
              induction m with
              | nil => cases hd
              | cons q qs ih =>
                obtain ⟨qk, qv⟩ := q
                unfold dictGet at hd
                by_cases hqe : qk = n2
                · rw [if_pos hqe] at hd
                  obtain rfl : qv = u := by simpa using hd
                  rw [hqe] at *
                  exact List.mem_cons_self _ _
                · rw [if_neg hqe] at hd
                  exact List.mem_cons_of_mem _ (ih (fun p hp => hm p (List.mem_cons_of_mem _ hp)) hd)
            exact hm (n2, u) this
          have hoe : out = n2 ++ ('.' :: ' ' :: []) ++ t2 ++
              (' ' :: '[' :: 'U' :: 'R' :: 'L' :: ':' :: []) ++ u ++ (']' :: []) := by
            simpa using h.symm
          rw [hoe]
          intro hmem
          rcases List.mem_append.mp hmem with h2 | h2
          · rcases List.mem_append.mp h2 with h3 | h3
            · rcases List.mem_append.mp h3 with h4 | h4
              · rcases List.mem_append.mp h4 with h5 | h5
                · rcases List.mem_append.mp h5 with h6 | h6
                  · exact hnmem h6
                  · simp at h6
                · exact htmem h5
              · simp at h4
            · exact humem h3
          · simp at h2

/-- A `filterMap` is the identity when `f` gives back every element. -/
theorem filterMap_fix {α : Type} {f : α → Option α} {l : List α}
    (h : ∀ a ∈ l, f a = some a) : l.filterMap f = l := by
  induction l with
  | nil => rfl
  | cons a rest ih =>
    rw [List.filterMap_cons, h a (List.mem_cons_self _ _),
      ih (fun b hb => h b (List.mem_cons_of_mem a hb))]

/-- C2 counterexample: with the non-empty mapping 1 → http://a,
re-applying `format_translated_result` to its own output appends the URL
tag a second time, so the function is not idempotent. -/
theorem format_translated_result_not_idempotent :
    format_translated_result
        (format_translated_result ('1' :: '.' :: ' ' :: 'H' :: 'i' :: [])
          [(('1' :: []), ('h' :: 't' :: 't' :: 'p' :: []))])
        [(('1' :: []), ('h' :: 't' :: 't' :: 'p' :: []))] ≠
      format_translated_result ('1' :: '.' :: ' ' :: 'H' :: 'i' :: [])
        [(('1' :: []), ('h' :: 't' :: 't' :: 'p' :: []))] := by
  decide

/-- C2 (amended): `format_translated_result` is idempotent when the url
mapping is empty: re-formatting already-formatted text with the empty
mapping yields the same text.  (With a mapping entry whose number occurs,
a second application appends the URL tag again.) -/
theorem format_translated_result_idem_empty (t : Str) :
    format_translated_result (format_translated_result t []) [] =
      format_translated_result t [] := by
  rw [format_translated_result_eq t, format_translated_result_eq]
  by_cases hn : (splitCh '\n' t).filterMap (fmtLine []) = []
  · rw [hn]
    rfl
  · have hnl : ∀ l ∈ (splitCh '\n' t).filterMap (fmtLine []), ('\n' : Char) ∉ l := by
      intro l hlmem
      obtain ⟨raw, hraw, hf⟩ := List.mem_filterMap.mp hlmem
      exact fmtLine_no_nl (by simp) (mem_splitCh_not_sep '\n' t raw hraw) hf
    have hstab : ∀ l ∈ (splitCh '\n' t).filterMap (fmtLine []),
        fmtLine [] l = some l := by
      intro l hlmem
      obtain ⟨raw, hraw, hf⟩ := List.mem_filterMap.mp hlmem
      exact fmtLine_empty_stable hf
    rw [splitCh_pyJoin '\n' _ hn hnl, filterMap_fix hstab]

/-- C6 counterexample: in the pipeline the first line of a chunk is the
title (`parse_chunk_structure` takes `lines[0]` as title), so for the
two-line chunk of the claim the item `1. 你好 [URL:http://a]` is consumed
as the title, the url mapping is empty, and the formatted result keeps
`1. Hello` without the URL — not the claimed
`1. Hello [URL:http://a]\n2. World`. -/
theorem format_example_without_title :
    format_translated_result "1. Hello\n2. World".toList
        (prepare_translation_batch
          (parse_chunk_structure "1. 你好 [URL:http://a]\n2. 世界".toList).2).2 =
      "1. Hello\n2. World".toList ∧
    format_translated_result "1. Hello\n2. World".toList
        (prepare_translation_batch
          (parse_chunk_structure "1. 你好 [URL:http://a]\n2. 世界".toList).2).2 ≠
      "1. Hello [URL:http://a]\n2. World".toList := by
  constructor
  · decide
  · decide

/-- C6 (amended): for a chunk with a title line,
`新闻\n1. 你好 [URL:http://a]\n2. 世界`, parsing extracts the two numbered
items with their url, the translation batch strips the url and maps 1 to
it, and formatting the translation `1. Hello\n2. World` appends the URL
tag exactly to item 1, preserving the numbering:
`1. Hello [URL:http://a]\n2. World`. -/
theorem format_example_with_title :
    parse_chunk_structure "新闻\n1. 你好 [URL:http://a]\n2. 世界".toList =
      ("新闻".toList, [("1".toList, "你好".toList, "http://a".toList),
        ("2".toList, "世界".toList, [])]) ∧
    prepare_translation_batch [("1".toList, "你好".toList, "http://a".toList),
        ("2".toList, "世界".toList, [])] =
      ("1. 你好\n2. 世界".toList, [("1".toList, "http://a".toList)]) ∧
    format_translated_result "1. Hello\n2. World".toList
        [("1".toList, "http://a".toList)] =
      "1. Hello [URL:http://a]\n2. World".toList := by
  refine ⟨by decide, by decide, by decide⟩

/-- A string without an occurrence of the separator pair splits into
itself. -/
theorem split2_eq_single {a b : Char} {s : Str}
    (h : hasPair a b s = false) : split2 a b s = [s] := by
  induction s with
  | nil => rfl
  | cons c1 rest ih =>
    cases rest with
    | nil => rfl
    | cons c2 r2 =>
      unfold hasPair at h
      simp only [Bool.or_eq_false_iff, Bool.and_eq_false_iff] at h
      have hcond : ¬(c1 = a ∧ c2 = b) := by
        intro hcc
        rcases h.1 with h2 | h2 <;> simp [hcc.1, hcc.2] at h2
      rw [split2, if_neg hcond, ih h.2]

/-- C10: splitting treats only the exact `\n\n` sequence as a boundary: if
a document contains no two consecutive newlines (for example a line of
spaces or tabs between two text lines), it stays one single chunk with
that whitespace line inside; and every chunk produced by the splitter is
non-empty and whitespace-trimmed, so leading, trailing or repeated blank
lines yield no empty chunks. -/
theorem read_and_split_file_spec :
    (∀ content : Str, hasPair '\n' '\n' content = false →
      read_and_split_file content =
        (if pyStrip content = [] then [] else [pyStrip content])) ∧
    (∀ content : Str, ∀ c ∈ read_and_split_file content,
      c ≠ [] ∧ pyStrip c = c) := by
  constructor
  · intro content h
    unfold read_and_split_file
    rw [split2_eq_single h]
    by_cases hs : pyStrip content = []
    · simp [hs]
    · simp [hs]
  · intro content c hc
    unfold read_and_split_file at hc
    obtain ⟨chunk, hchunk, hf⟩ := List.mem_filterMap.mp hc
    by_cases hs : pyStrip chunk = []
    · simp [hs] at hf
    · rw [if_neg hs] at hf
      have hce : c = pyStrip chunk := by simpa using hf.symm
      constructor
      · rw [hce]
        exact hs
      · rw [hce, pyStrip_idem]

/-- Witness for C10 at the document `a\n \nb`: the middle line holds only
a space, so the document is one chunk with that line kept inside. -/
theorem read_and_split_file_spec_witness :
    hasPair '\n' '\n' "a\n \nb".toList = false ∧
    read_and_split_file "a\n \nb".toList = ["a\n \nb".toList] ∧
    (∀ c ∈ read_and_split_file "a\n \nb".toList, c ≠ [] ∧ pyStrip c = c) := by
  refine ⟨by decide, ?_, read_and_split_file_spec.2 "a\n \nb".toList⟩
  rw [read_and_split_file_spec.1 "a\n \nb".toList (by decide)]
  decide

/-- Lookup after a Python-dict insert. -/
theorem dictGet_dictInsert (m : List (Str × Str)) (k v n : Str) :
    dictGet (dictInsert m k v) n = if n = k then some v else dictGet m n := by
  induction m with
  | nil =>
    by_cases hnk : n = k
    · simp [dictInsert, dictGet, hnk]
    · have : ¬ k = n := fun he => hnk he.symm
      simp [dictInsert, dictGet, hnk, this]
  | cons q rest ih =>
    obtain ⟨k2, v2⟩ := q
    by_cases hk2 : k2 = k
    · rw [dictInsert, if_pos hk2]
      by_cases hnk : n = k
      · simp [dictGet, hnk]
      · have h1 : ¬ k = n := fun he => hnk he.symm
        have h2 : ¬ k2 = n := by rw [hk2]; exact h1
        simp [dictGet, h1, h2, hnk]
    · rw [dictInsert, if_neg hk2]
      by_cases hk2n : k2 = n
      · have hnk : ¬ n = k := by rw [← hk2n]; exact fun he => hk2 he
        simp [dictGet, hk2n, hnk]
      · simp [dictGet, hk2n, ih]

/-- Domain of the url mapping built by the `prepare_translation_batch`
fold: a number is present exactly when some item carries it with a
non-empty url. -/
theorem mapping_fold_mem (items : List (Str × Str × Str))
    (acc : List (Str × Str)) (n : Str) :
    (∃ u, dictGet (items.foldl
        (fun m it => if it.2.2 ≠ [] then dictInsert m it.1 it.2.2 else m) acc) n
      = some u) ↔
      ((∃ t u, (n, t, u) ∈ items ∧ u ≠ []) ∨ ∃ u, dictGet acc n = some u) := by
  induction items generalizing acc with
  | nil => simp
  | cons it rest ih =>
    obtain ⟨num, txt, url⟩ := it
    rw [List.foldl_cons, ih]
    by_cases hu : url ≠ []
    · rw [if_pos hu]
      constructor
      · rintro (⟨t, u, hmem, hune⟩ | ⟨u, hget⟩)
        · exact Or.inl ⟨t, u, List.mem_cons_of_mem _ hmem, hune⟩
        · rw [dictGet_dictInsert] at hget
          by_cases hnn : n = num
          · refine Or.inl ⟨txt, url, ?_, hu⟩
            rw [hnn]
            exact List.mem_cons_self _ _
          · rw [if_neg hnn] at hget
            exact Or.inr ⟨u, hget⟩
      · rintro (⟨t, u, hmem, hune⟩ | ⟨u, hget⟩)
        · rcases List.mem_cons.mp hmem with he | hmem2
          · simp only [Prod.mk.injEq] at he
            obtain ⟨he1, he2, he3⟩ := he
            refine Or.inr ⟨url, ?_⟩
            rw [dictGet_dictInsert, if_pos he1]
          · exact Or.inl ⟨t, u, hmem2, hune⟩
        · by_cases hnn : n = num
          · refine Or.inr ⟨url, ?_⟩
            rw [dictGet_dictInsert, if_pos hnn]
          · refine Or.inr ⟨u, ?_⟩
            rw [dictGet_dictInsert, if_neg hnn]
            exact hget
    · rw [if_neg hu]
      push_neg at hu
      constructor
      · rintro (⟨t, u, hmem, hune⟩ | h2)
        · exact Or.inl ⟨t, u, List.mem_cons_of_mem _ hmem, hune⟩
        · exact Or.inr h2
      · rintro (⟨t, u, hmem, hune⟩ | h2)
        · rcases List.mem_cons.mp hmem with he | hmem2
          · exfalso
            apply hune
            simp only [Prod.mk.injEq] at he
            rw [he.2.2, hu]
          · exact Or.inl ⟨t, u, hmem2, hune⟩
        · exact Or.inr h2

/-- Values of the url mapping built by the fold come from the items. -/
theorem mapping_fold_val (items : List (Str × Str × Str))
    (acc : List (Str × Str)) (n u : Str)
    (h : dictGet (items.foldl
        (fun m it => if it.2.2 ≠ [] then dictInsert m it.1 it.2.2 else m) acc) n
      = some u) :
    (∃ t, (n, t, u) ∈ items ∧ u ≠ []) ∨ dictGet acc n = some u := by
  induction items generalizing acc with
  | nil => exact Or.inr h
  | cons it rest ih =>
    obtain ⟨num, txt, url⟩ := it
    rw [List.foldl_cons] at h
    rcases ih _ h with ⟨t, hmem, hune⟩ | hacc
    · exact Or.inl ⟨t, List.mem_cons_of_mem _ hmem, hune⟩
    · by_cases hu : url ≠ []
      · rw [if_pos hu] at hacc
        rw [dictGet_dictInsert] at hacc
        by_cases hnn : n = num
        · rw [if_pos hnn] at hacc
          obtain rfl : url = u := by simpa using hacc
          refine Or.inl ⟨txt, ?_, hu⟩
          rw [hnn]
          exact List.mem_cons_self _ _
        · rw [if_neg hnn] at hacc
          exact Or.inr hacc
      · rw [if_neg hu] at hacc
        exact Or.inr hacc

/-- C7: the batch sent to the translation capability is exactly the lines
`number. text` of the items in order; it depends only on the numbers and
texts (any change to the urls leaves it unchanged, so URLs are never
sent); and the returned mapping contains exactly the numbers of items
with a non-empty url, with values taken from those items. -/
theorem prepare_translation_batch_spec (items : List (Str × Str × Str))
    (hnl : ∀ it ∈ items, ('\n' : Char) ∉ it.1 ∧ ('\n' : Char) ∉ it.2.1)
    (hne : items ≠ []) :
    splitCh '\n' (prepare_translation_batch items).1 =
      items.map (fun it => it.1 ++ ('.' :: ' ' :: []) ++ it.2.1) ∧
    (∀ items2 : List (Str × Str × Str),
      items2.map (fun it => (it.1, it.2.1)) =
        items.map (fun it => (it.1, it.2.1)) →
      (prepare_translation_batch items2).1 =
        (prepare_translation_batch items).1) ∧
    (∀ n, (∃ u, dictGet (prepare_translation_batch items).2 n = some u) ↔
      ∃ t u, (n, t, u) ∈ items ∧ u ≠ []) ∧
    (∀ n u, dictGet (prepare_translation_batch items).2 n = some u →
      ∃ t, (n, t, u) ∈ items ∧ u ≠ []) := by
  refine ⟨?_, ?_, ?_, ?_⟩
  · refine splitCh_pyJoin '\n' _ (by simpa using hne) ?_
    intro l hl
    obtain ⟨it, hit, hform⟩ := List.mem_map.mp hl
    rw [← hform]
    intro hmem
    rcases List.mem_append.mp hmem with h2 | h2
    · rcases List.mem_append.mp h2 with h3 | h3
      · exact (hnl it hit).1 h3
      · simp at h3
    · exact (hnl it hit).2 h2
  · intro items2 hproj
    show pyJoin ('\n' :: []) _ = pyJoin ('\n' :: []) _
    have hmm : ∀ zs : List (Str × Str × Str),
        zs.map (fun it => it.1 ++ ('.' :: ' ' :: []) ++ it.2.1) =
          (zs.map (fun it => (it.1, it.2.1))).map
            (fun p => p.1 ++ ('.' :: ' ' :: []) ++ p.2) := by
      intro zs
      rw [List.map_map]
      rfl
    rw [hmm, hmm, hproj]
  · intro n
    rw [show (prepare_translation_batch items).2 = items.foldl
        (fun m it => if it.2.2 ≠ [] then dictInsert m it.1 it.2.2 else m) []
      from rfl]
    rw [mapping_fold_mem items [] n]
    simp [dictGet]
  · intro n u hget
    rcases mapping_fold_val items [] n u hget with h | h
    · exact h
    · cases h

/-- Witness for C7 at the two items of the worked example (item 1 carries
a url, item 2 does not). -/
theorem prepare_translation_batch_spec_witness :
    (∀ it ∈ [("1".toList, "你好".toList, "http://a".toList),
        ("2".toList, "世界".toList, ([] : Str))],
      ('\n' : Char) ∉ it.1 ∧ ('\n' : Char) ∉ it.2.1) ∧
    splitCh '\n' (prepare_translation_batch
        [("1".toList, "你好".toList, "http://a".toList),
         ("2".toList, "世界".toList, [])]).1 =
      ["1. 你好".toList, "2. 世界".toList] ∧
    (∀ n u, dictGet (prepare_translation_batch
        [("1".toList, "你好".toList, "http://a".toList),
         ("2".toList, "世界".toList, [])]).2 n = some u →
      ∃ t, (n, t, u) ∈ [("1".toList, "你好".toList, "http://a".toList),
        ("2".toList, "世界".toList, [])] ∧ u ≠ []) := by
  refine ⟨by decide, ?_, ?_⟩
  · have h := (prepare_translation_batch_spec
      [("1".toList, "你好".toList, "http://a".toList),
       ("2".toList, "世界".toList, [])] (by decide) (by decide)).1
    rw [h]
    decide
  · exact (prepare_translation_batch_spec
      [("1".toList, "你好".toList, "http://a".toList),
       ("2".toList, "世界".toList, [])] (by decide) (by decide)).2.2.2

/-- The queue drain records exactly one result per chunk state. -/
theorem drain_length (oracle : Nat → Outcome) (states : List ChunkState) :
    ∀ init : Nat × List (Str × ChunkState),
      ((states.foldl
        (fun (acc : Nat × List (Str × ChunkState)) st =>
          let r := process_chunk oracle acc.1 st
          (r.nextAttempt, acc.2 ++ [(r.state.id, r.state)])) init).2).length =
      init.2.length + states.length := by
  induction states with
  | nil => intro init; simp
  | cons st rest ih =>
    intro init
    rw [List.foldl_cons, ih]
    simp
    omega

/-- Every recorded result of the queue drain is the final state of a
`process_chunk` run (or came from the initial accumulator). -/
theorem drain_mem (oracle : Nat → Outcome) (states : List ChunkState) :
    ∀ init : Nat × List (Str × ChunkState),
      ∀ p ∈ (states.foldl
        (fun (acc : Nat × List (Str × ChunkState)) st =>
          let r := process_chunk oracle acc.1 st
          (r.nextAttempt, acc.2 ++ [(r.state.id, r.state)])) init).2,
      p ∈ init.2 ∨ ∃ k2 st2, p.2 = (process_chunk oracle k2 st2).state := by
  induction states with
  | nil =>
    intro init p hp
    exact Or.inl hp
  | cons st rest ih =>
    intro init p hp
    rw [List.foldl_cons] at hp
    rcases ih _ p hp with hmem | hrec
    · simp only [List.mem_append] at hmem
      rcases hmem with h1 | h1
      · exact Or.inl h1
      · refine Or.inr ⟨init.1, st, ?_⟩
        simpa using congrArg Prod.snd (List.mem_singleton.mp h1)
    · exact Or.inr hrec

/-- C9: `process_all_chunks` is a total function of the document content
and the translation outcomes (every exception raised inside a chunk is
caught by `process_chunk`, so no input raises); it records one terminal
result per chunk — a Failed chunk never aborts the run; the job result
is success exactly when some chunk completed; and an empty document
yields zero chunks, no results, and the non-error return value `false`. -/
theorem process_all_chunks_spec (oracle : Nat → Outcome) (content : Str) :
    ((process_all_chunks oracle content).1 = true ↔
      ∃ p ∈ (process_all_chunks oracle content).2.2,
        p.2.status = ChunkStatus.completed) ∧
    (process_all_chunks oracle content).2.2.length =
      (process_all_chunks oracle content).2.1 ∧
    (∀ p ∈ (process_all_chunks oracle content).2.2,
      p.2.status = ChunkStatus.completed ∨
        p.2.status = ChunkStatus.failed) ∧
    (content = [] → process_all_chunks oracle content = (false, 0, [])) := by
  by_cases he : (read_and_split_file content).isEmpty
  · have hres : process_all_chunks oracle content =
        (false, (read_and_split_file content).length, []) := by
      unfold process_all_chunks
      rw [if_pos he]
    have hlen : (read_and_split_file content).length = 0 := by
      rw [List.isEmpty_iff] at he
      rw [he]
      rfl
    refine ⟨?_, ?_, ?_, ?_⟩
    · rw [hres]
      constructor
      · intro h
        cases h
      · rintro ⟨p, hp, -⟩
        cases hp
    · rw [hres, hlen]
      rfl
    · rw [hres]
      intro p hp
      cases hp
    · intro hc
      rw [hres, hlen]
  · have hres : process_all_chunks oracle content =
        (let chunks := read_and_split_file content
         let states := ((List.range chunks.length).zip chunks).map
           (fun p => { id := chunkIdOf p.1, content := p.2 : ChunkState })
         let results := (states.foldl
           (fun (acc : Nat × List (Str × ChunkState)) st =>
             let r := process_chunk oracle acc.1 st
             (r.nextAttempt, acc.2 ++ [(r.state.id, r.state)]))
           (0, [])).2
         let success_count := (results.filter
           (fun p => decide (p.2.status = ChunkStatus.completed))).length
         (decide (0 < success_count), chunks.length, results)) := by
      unfold process_all_chunks
      rw [if_neg he]
    refine ⟨?_, ?_, ?_, ?_⟩
    · rw [hres]
      simp only [decide_eq_true_eq]
      rw [List.length_pos_iff_exists_mem]
      constructor
      · rintro ⟨q, hq⟩
        have h2 := List.mem_filter.mp hq
        exact ⟨q, h2.1, by simpa using h2.2⟩
      · rintro ⟨q, hqmem, hqc⟩
        exact ⟨q, List.mem_filter.mpr ⟨hqmem, by simpa using hqc⟩⟩
    · rw [hres]
      rw [drain_length]
      simp
    · rw [hres]
      intro p hp
      rcases drain_mem oracle _ _ p hp with h1 | ⟨k2, st2, hps⟩
      · cases h1
      · rw [hps]
        exact (process_chunk_spec oracle k2 st2).2.2.1
    · intro hc
      exfalso
      apply he
      rw [hc]
      rfl

/-- Witness for C9's empty-document conjunct: the empty content yields
zero chunks, an empty result set, and `false` without error. -/
theorem process_all_chunks_spec_witness :
    process_all_chunks (fun _ => Outcome.httpError 429) [] = (false, 0, []) ∧
    ((process_all_chunks (fun _ => Outcome.httpError 429) []).1 = true ↔
      ∃ p ∈ (process_all_chunks (fun _ => Outcome.httpError 429) []).2.2,
        p.2.status = ChunkStatus.completed) :=
  ⟨(process_all_chunks_spec (fun _ => Outcome.httpError 429) []).2.2.2 rfl,
    (process_all_chunks_spec (fun _ => Outcome.httpError 429) []).1⟩

/-- Unfolding `natDigits` below 10. -/
theorem natDigits_lt (n : Nat) (h : n < 10) : natDigits n = [Nat.digitChar n] := by
  rw [natDigits, if_pos h]

/-- Unfolding `natDigits` at 10 and above. -/
theorem natDigits_ge (n : Nat) (h : ¬ n < 10) :
    natDigits n = natDigits (n / 10) ++ [Nat.digitChar (n % 10)] := by
  conv_lhs => rw [natDigits]
  rw [if_neg h]

/-- The fuel-based core `Nat.toDigits` agrees with `natDigits`. -/
theorem toDigitsCore_eq_natDigits :
    ∀ (fuel n : Nat) (acc : Str), n < fuel →
      Nat.toDigitsCore 10 fuel n acc = natDigits n ++ acc := by
  intro fuel
  induction fuel with
  | zero => intro n acc h; omega
  | succ fuel ih =>
    intro n acc h
    rw [Nat.toDigitsCore]
    by_cases hz : n / 10 = 0
    · have hn10 : n < 10 := by omega
      rw [if_pos hz, natDigits_lt n hn10]
      have : n % 10 = n := Nat.mod_eq_of_lt hn10
      rw [this]
      rfl
    · have hn10 : ¬ n < 10 := by
        intro hlt
        exact hz (Nat.div_eq_of_lt hlt)
      rw [if_neg hz, ih (n / 10) _ (by
        have := Nat.div_lt_self (by omega : 0 < n) (by norm_num : 1 < 10)
        omega)]
      rw [natDigits_ge n hn10]
      simp

/-- Core `Nat.toDigits 10` agrees with `natDigits`. -/
theorem toDigits_eq_natDigits (n : Nat) :
    Nat.toDigits 10 n = natDigits n := by
  rw [Nat.toDigits, toDigitsCore_eq_natDigits (n + 1) n [] (by omega)]
  simp

/-- All characters of `natDigits` are decimal digits. -/
theorem natDigits_all_digit (n : Nat) : ∀ c ∈ natDigits n, c.isDigit = true := by
  induction n using Nat.strong_induction_on with
  | _ n ih =>
    by_cases h : n < 10
    · rw [natDigits_lt n h]
      intro c hc
      obtain rfl : c = Nat.digitChar n := by simpa using hc
      interval_cases n <;> decide
    · rw [natDigits_ge n h]
      intro c hc
      rcases List.mem_append.mp hc with h2 | h2
      · exact ih (n / 10) (Nat.div_lt_self (by omega) (by norm_num)) c h2
      · obtain rfl : c = Nat.digitChar (n % 10) := by simpa using h2
        have : n % 10 < 10 := Nat.mod_lt n (by norm_num)
        interval_cases hm : (n % 10) <;> decide

/-- Value of `pyInt` on a single digit character. -/
theorem pyInt_foldl_digitChar (a d : Nat) (h : d < 10) :
    List.foldl (fun x c => 10 * x + (c.toNat - 48)) a [Nat.digitChar d] =
      10 * a + d := by
  interval_cases d <;> rfl

/-- Roundtrip `int(str(n)) = n`. -/
theorem pyInt_natDigits (n : Nat) : pyInt (natDigits n) = n := by
  induction n using Nat.strong_induction_on with
  | _ n ih =>
    by_cases h : n < 10
    · rw [natDigits_lt n h]
      unfold pyInt
      rw [pyInt_foldl_digitChar 0 n h]
      omega
    · rw [natDigits_ge n h]
      unfold pyInt
      rw [List.foldl_append]
      have h1 : List.foldl (fun x c => 10 * x + (c.toNat - 48)) 0
          (natDigits (n / 10)) = n / 10 :=
        ih (n / 10) (Nat.div_lt_self (by omega) (by norm_num))
      rw [h1, pyInt_foldl_digitChar (n / 10) (n % 10) (Nat.mod_lt n (by norm_num))]
      omega

/-- Leading zeroes do not change `pyInt`. -/
theorem pyInt_replicate_zero (k : Nat) (s : Str) :
    pyInt (List.replicate k '0' ++ s) = pyInt s := by
  unfold pyInt
  rw [List.foldl_append]
  have : List.foldl (fun x c => 10 * x + (c.toNat - 48)) 0
      (List.replicate k '0') = 0 := by
    induction k with
    | zero => rfl
    | succ k ihk =>
      rw [List.replicate_succ, List.foldl_cons]
      simpa using ihk
  rw [this]

/-- Roundtrip of the padded rendering: int of pad3 of n is n. -/
theorem pyInt_pad3 (n : Nat) : pyInt (pad3 n) = n := by
  unfold pad3
  rw [toDigits_eq_natDigits, pyInt_replicate_zero, pyInt_natDigits]

/-- The zero-padded index contains no underscore. -/
theorem pad3_no_underscore (n : Nat) : ('_' : Char) ∉ pad3 n := by
  unfold pad3
  intro hmem
  rcases List.mem_append.mp hmem with h | h
  · have := List.eq_of_mem_replicate h
    cases this
  · rw [toDigits_eq_natDigits] at h
    have := natDigits_all_digit n '_' h
    cases this

/-- Extracting the numeric index from a generated chunk id. -/
theorem chunkIndex_chunkIdOf (i : Nat) : chunkIndex (chunkIdOf i) = i := by
  unfold chunkIndex chunkIdOf
  have hsplit : splitCh '_'
      (('c' :: 'h' :: 'u' :: 'n' :: 'k' :: '_' :: []) ++ pad3 i) =
      ('c' :: 'h' :: 'u' :: 'n' :: 'k' :: []) :: splitCh '_' (pad3 i) := by
    exact splitCh_append_sep '_' ('c' :: 'h' :: 'u' :: 'n' :: 'k' :: []) (pad3 i)
      (by decide)
  have : ('c' :: 'h' :: 'u' :: 'n' :: 'k' :: '_' :: []) ++ pad3 i =
      ('c' :: 'h' :: 'u' :: 'n' :: 'k' :: []) ++ '_' :: pad3 i := by simp
  rw [this] at hsplit ⊢
  rw [hsplit, splitCh_no_sep '_' (pad3 i) (pad3_no_underscore i)]
  exact pyInt_pad3 i

/-- Head of a non-empty trim-stable string is not whitespace. -/
theorem head_not_ws_of_stable {q : Str} (hst : pyStrip q = q) :
    ∀ c, q.head? = some c → isPySpace c = false := by
  intro c hc
  have hd := dropWhile_eq_self_of_pyStrip hst
  cases q with
  | nil => cases hc
  | cons a t =>
    obtain rfl : a = c := by simpa using hc
    by_cases hpa : isPySpace a = true
    · rw [List.dropWhile_cons, hpa] at hd
      simp only [if_true] at hd
      have := (List.dropWhile_suffix (l := t) isPySpace).length_le
      rw [hd] at this
      simp at this
    · simpa using hpa

/-- Last character of a non-empty trim-stable string is not whitespace. -/
theorem last_not_ws_of_stable {q : Str} (hst : pyStrip q = q) :
    ∀ c, q.getLast? = some c → isPySpace c = false := by
  intro c hc
  have hne : q ≠ [] := by
    intro h
    rw [h] at hc
    cases hc
  have hrd := rdropWhile_eq_self_of_pyStrip hst
  have h2 := (List.rdropWhile_eq_self_iff).mp hrd hne
  rw [List.getLast?_eq_getLast_of_ne_nil hne] at hc
  obtain rfl : q.getLast hne = c := by simpa using hc
  simpa using h2

/-- A join of non-empty pieces is non-empty. -/
theorem pyJoin_ne_nil (sep : Str) :
    ∀ ps : List Str, ps ≠ [] → (∀ q ∈ ps, q ≠ []) → pyJoin sep ps ≠ [] := by
  intro ps
  induction ps with
  | nil => intro h; exact absurd rfl h
  | cons x rest ih =>
    intro _ hall
    cases rest with
    | nil =>
      rw [pyJoin]
      exact hall x (List.mem_cons_self _ _)
    | cons y r2 =>
      rw [pyJoin]
      have hx : x ≠ [] := hall x (List.mem_cons_self _ _)
      cases x with
      | nil => exact absurd rfl hx
      | cons a b => simp

/-- Head of a join is the head of the first piece. -/
theorem pyJoin_head (sep : Str) (x : Str) (rest : List Str) (hx : x ≠ []) :
    (pyJoin sep (x :: rest)).head? = x.head? := by
  cases rest with
  | nil => rfl
  | cons y r2 =>
    rw [pyJoin]
    cases x with
    | nil => exact absurd rfl hx
    | cons a b => simp

/-- The last character of a join comes from one of the pieces. -/
theorem pyJoin_getLast_mem (sep : Str) :
    ∀ ps : List Str, (∀ q ∈ ps, q ≠ []) → ∀ c,
      (pyJoin sep ps).getLast? = some c → ∃ q ∈ ps, q.getLast? = some c := by
  intro ps
  induction ps with
  | nil =>
    intro _ c hc
    cases hc
  | cons x rest ih =>
    intro hall c hc
    cases rest with
    | nil =>
      rw [pyJoin] at hc
      exact ⟨x, List.mem_cons_self _ _, hc⟩
    | cons y r2 =>
      rw [pyJoin] at hc
      have hjoin_ne : pyJoin sep (y :: r2) ≠ [] :=
        pyJoin_ne_nil sep (y :: r2) (by simp)
          (fun q hq => hall q (List.mem_cons_of_mem x hq))
      rw [List.getLast?_append_of_ne_nil _ hjoin_ne] at hc
      obtain ⟨q, hq1, hq2⟩ := ih (fun q hq => hall q (List.mem_cons_of_mem x hq)) c hc
      exact ⟨q, List.mem_cons_of_mem x hq1, hq2⟩

/-- Stripping a join of non-empty trim-stable pieces followed by the
blank-line separator yields the bare join. -/
theorem pyStrip_join_sep (ps : List Str) (hne : ps ≠ [])
    (hall : ∀ q ∈ ps, q ≠ [] ∧ pyStrip q = q) :
    pyStrip (pyJoin ('\n' :: '\n' :: []) ps ++ ('\n' :: '\n' :: [])) =
      pyJoin ('\n' :: '\n' :: []) ps := by
  obtain ⟨x, rest, rfl⟩ : ∃ x rest, ps = x :: rest := by
    cases ps with
    | nil => exact absurd rfl hne
    | cons a b => exact ⟨a, b, rfl⟩
  have hx := hall x (List.mem_cons_self _ _)
  have hh : ∀ c, (pyJoin ('\n' :: '\n' :: []) (x :: rest) ++
      ('\n' :: '\n' :: [])).head? = some c → isPySpace c = false := by
    intro c hc
    have hjne : pyJoin ('\n' :: '\n' :: []) (x :: rest) ≠ [] :=
      pyJoin_ne_nil _ _ (by simp) (fun q hq => (hall q hq).1)
    obtain ⟨a, b, hab⟩ : ∃ a b, pyJoin ('\n' :: '\n' :: []) (x :: rest) = a :: b := by
      cases hj : pyJoin ('\n' :: '\n' :: []) (x :: rest) with
      | nil => exact absurd hj hjne
      | cons a b => exact ⟨a, b, rfl⟩
    rw [hab] at hc
    simp only [List.cons_append, List.head?_cons, Option.some.injEq] at hc
    have hheadj : (pyJoin ('\n' :: '\n' :: []) (x :: rest)).head? = x.head? :=
      pyJoin_head _ x rest hx.1
    rw [hab] at hheadj
    simp only [List.head?_cons] at hheadj
    rw [← hc]
    exact head_not_ws_of_stable hx.2 a hheadj.symm
  rw [pyStrip_eq_rdropWhile, dropWhile_eq_self_of_head hh,
    show pyJoin ('\n' :: '\n' :: []) (x :: rest) ++ ('\n' :: '\n' :: []) =
      (pyJoin ('\n' :: '\n' :: []) (x :: rest) ++ ('\n' :: [])) ++ ('\n' :: [])
      by simp,
    List.rdropWhile_concat_pos _ _ _ (by decide),
    List.rdropWhile_concat_pos _ _ _ (by decide),
    List.rdropWhile_eq_self_iff]
  intro hl
  have hlast := List.getLast?_eq_getLast_of_ne_nil hl
  obtain ⟨q, hq1, hq2⟩ := pyJoin_getLast_mem ('\n' :: '\n' :: []) (x :: rest)
    (fun q hq => (hall q hq).1) _ hlast
  have := last_not_ws_of_stable (hall q hq1).2 _ hq2
  simp [this]

/-- The accumulator of the `txt_content` loop shifts out of the fold. -/
theorem txt_fold_shift (ps : List Str) : ∀ acc : Str,
    ps.foldl (fun acc2 r => acc2 ++ r ++ ('\n' :: '\n' :: [])) acc =
      acc ++ ps.foldl (fun acc2 r => acc2 ++ r ++ ('\n' :: '\n' :: [])) [] := by
  induction ps with
  | nil => intro acc; simp
  | cons r rest ih =>
    intro acc
    rw [List.foldl_cons, List.foldl_cons, ih, ih ([] ++ r ++ _)]
    simp

/-- Rewrites `txt_content` as the fold of the contributed results. -/
theorem txt_content_eq_pieces (l : List (Str × ChunkState)) :
    txt_content l = (l.filterMap resultOf).foldl
      (fun acc2 r => acc2 ++ r ++ ('\n' :: '\n' :: [])) [] := by
  suffices h : ∀ acc, l.foldl
      (fun acc p =>
        match p.2.status, p.2.result with
        | .completed, some r => if r ≠ [] then acc ++ r ++ ('\n' :: '\n' :: []) else acc
        | _, _ => acc) acc =
      (l.filterMap resultOf).foldl
        (fun acc2 r => acc2 ++ r ++ ('\n' :: '\n' :: [])) acc by
    exact h []
  induction l with
  | nil => intro acc; rfl
  | cons p rest ih =>
    intro acc
    rw [List.foldl_cons, List.filterMap_cons]
    rcases hs : p.2.status <;> rcases hr : p.2.result with - | r <;>
      simp only [resultOf, hs, hr] <;> try exact ih acc
    by_cases hrne : r ≠ []
    · simp only [ne_eq, hrne, not_false_eq_true, if_true, List.foldl_cons]
      exact ih _
    · push_neg at hrne
      subst hrne
      simp only [ne_eq, not_true_eq_false, if_false, reduceIte]
      exact ih acc

/-- The fold of the pieces is the blank-line join with one trailing
separator. -/
theorem txt_fold_join (ps : List Str) (hne : ps ≠ []) :
    ps.foldl (fun acc2 r => acc2 ++ r ++ ('\n' :: '\n' :: [])) [] =
      pyJoin ('\n' :: '\n' :: []) ps ++ ('\n' :: '\n' :: []) := by
  induction ps with
  | nil => exact absurd rfl hne
  | cons x rest ih =>
    cases rest with
    | nil => simp [pyJoin]
    | cons y r2 =>
      rw [List.foldl_cons, txt_fold_shift, ih (by simp), pyJoin]
      simp

/-- Two pairwise facts combine pointwise. -/
theorem pairwise_combine {α : Type} {R S T : α → α → Prop} :
    ∀ {l : List α}, l.Pairwise R → l.Pairwise S →
      (∀ a b, R a b → S a b → T a b) → l.Pairwise T := by
  intro l
  induction l with
  | nil => intro _ _ _; exact List.Pairwise.nil
  | cons a rest ih =>
    intro h1 h2 himp
    rw [List.pairwise_cons] at h1 h2 ⊢
    exact ⟨fun b hb => himp a b (h1.1 b hb) (h2.1 b hb), ih h1.2 h2.2 himp⟩

/-- The stable sort of any permutation of the canonically-id'd chunk
results restores the original index order. -/
theorem sortResultsByIdx_canonical (n : Nat) (f : Nat → ChunkState)
    (rs : List (Str × ChunkState))
    (hperm : rs.Perm ((List.range n).map (fun i => (chunkIdOf i, f i)))) :
    sortResultsByIdx rs = (List.range n).map (fun i => (chunkIdOf i, f i)) := by
  have hlt_canon : List.Pairwise
      (fun p q : Str × ChunkState => chunkIndex p.1 < chunkIndex q.1)
      ((List.range n).map (fun i => (chunkIdOf i, f i))) := by
    rw [List.pairwise_map]
    refine (List.pairwise_lt_range n).imp ?_
    intro a b hab
    simpa [chunkIndex_chunkIdOf] using hab
  have hperm2 : (sortResultsByIdx rs).Perm
      ((List.range n).map (fun i => (chunkIdOf i, f i))) :=
    (List.perm_insertionSort _ rs).trans hperm
  have hle : List.Pairwise
      (fun p q : Str × ChunkState => chunkIndex p.1 ≤ chunkIndex q.1)
      (sortResultsByIdx rs) := by
    have htot : IsTotal (Str × ChunkState)
        (fun p q => chunkIndex p.1 ≤ chunkIndex q.1) := ⟨fun a b => Nat.le_total _ _⟩
    have htr : IsTrans (Str × ChunkState)
        (fun p q => chunkIndex p.1 ≤ chunkIndex q.1) := ⟨fun a b c => Nat.le_trans⟩
    exact @List.sorted_insertionSort _ _ _ htot htr rs
  have hne2 : List.Pairwise
      (fun p q : Str × ChunkState => chunkIndex p.1 ≠ chunkIndex q.1)
      (sortResultsByIdx rs) := by
    refine (List.Perm.pairwise_iff ?_ hperm2).mpr ?_
    · intro a b hab
      exact hab.symm
    · exact hlt_canon.imp (fun h => Nat.ne_of_lt h)
  have hlt : List.Pairwise
      (fun p q : Str × ChunkState => chunkIndex p.1 < chunkIndex q.1)
      (sortResultsByIdx rs) :=
    pairwise_combine hle hne2 (fun a b h1 h2 => Nat.lt_of_le_of_ne h1 h2)
  have hanti : IsAntisymm (Str × ChunkState)
      (fun p q => chunkIndex p.1 < chunkIndex q.1) := by
    refine ⟨fun a b h1 h2 => ?_⟩
    exact absurd h2 (Nat.lt_asymm h1)
  exact @List.eq_of_perm_of_sorted _ _ hanti _ _ hperm2 hlt hlt_canon

/-- C5 (amended): for any result set that is a permutation — completion
order is arbitrary — of the pipeline's chunk entries `chunk_i ↦ f i`
whose completed results are non-empty and carry no surrounding
whitespace, the text written to the output file is exactly the Completed
chunks' results in original index order, joined by the blank-line
separator, with Failed chunks omitted.  (The code further trims the
assembled text and skips completed chunks whose result is empty, which
is why the whitespace hypothesis is needed; see the counterexample.) -/
theorem write_output_files_assembly (n : Nat) (f : Nat → ChunkState)
    (rs : List (Str × ChunkState))
    (hperm : rs.Perm ((List.range n).map (fun i => (chunkIdOf i, f i))))
    (hres : ∀ i, i < n → (f i).status = ChunkStatus.completed →
      ∃ r, (f i).result = some r ∧ r ≠ [] ∧ pyStrip r = r) :
    write_output_txt rs =
      pyJoin ('\n' :: '\n' :: []) ((List.range n).filterMap
        (fun i => match (f i).status, (f i).result with
          | ChunkStatus.completed, some r => some r
          | _, _ => none)) := by
  unfold write_output_txt
  rw [sortResultsByIdx_canonical n f rs hperm, txt_content_eq_pieces]
  have hpieces : ((List.range n).map (fun i => (chunkIdOf i, f i))).filterMap resultOf =
      (List.range n).filterMap
        (fun i => match (f i).status, (f i).result with
          | ChunkStatus.completed, some r => some r
          | _, _ => none) := by
    rw [List.filterMap_map]
    refine List.filterMap_congr ?_
    intro i hi
    have hi2 : i < n := List.mem_range.mp hi
    rcases hs : (f i).status <;> rcases hr : (f i).result with - | r <;>
        simp only [Function.comp, resultOf, hs, hr]
    obtain ⟨r2, hr2, hrne, -⟩ := hres i hi2 hs
    rw [hr] at hr2
    obtain rfl : r = r2 := Option.some.inj hr2
    simp [hrne]
  rw [hpieces]
  by_cases hpe : (List.range n).filterMap
      (fun i => match (f i).status, (f i).result with
        | ChunkStatus.completed, some r => some r
        | _, _ => none) = []
  · rw [hpe]
    rfl
  · have hall : ∀ q ∈ (List.range n).filterMap
        (fun i => match (f i).status, (f i).result with
          | ChunkStatus.completed, some r => some r
          | _, _ => none), q ≠ [] ∧ pyStrip q = q := by
      intro q hq
      obtain ⟨i, hi, hfi⟩ := List.mem_filterMap.mp hq
      have hi2 : i < n := List.mem_range.mp hi
      rcases hs : (f i).status <;> rcases hr : (f i).result with - | r <;>
          simp only [hs, hr, reduceCtorEq, Option.some.injEq] at hfi
      obtain rfl : r = q := hfi
      obtain ⟨r2, hr2, hrne, hrst⟩ := hres i hi2 hs
      rw [hr] at hr2
      obtain rfl : r = r2 := Option.some.inj hr2
      exact ⟨hrne, hrst⟩
    rw [txt_fold_join _ hpe, pyStrip_join_sep _ hpe hall]

/-- C5 counterexample: the final `txt_content.strip()` trims whitespace
belonging to a completed chunk's result, so the written text is not
always exactly the completed results joined by the separator: a single
completed chunk whose result ends in a space (as a result of the form
`title\n1. ` does) is written back trimmed. -/
theorem write_output_txt_strips_last_result :
    write_output_txt [(('c' :: 'h' :: 'u' :: 'n' :: 'k' :: '_' :: '0' :: '0' :: '0' :: []),
      { id := ('c' :: 'h' :: 'u' :: 'n' :: 'k' :: '_' :: '0' :: '0' :: '0' :: []),
        content := [], status := ChunkStatus.completed,
        result := some ('T' :: '\n' :: '1' :: '.' :: ' ' :: []) })] =
      ('T' :: '\n' :: '1' :: '.' :: []) ∧
    write_output_txt [(('c' :: 'h' :: 'u' :: 'n' :: 'k' :: '_' :: '0' :: '0' :: '0' :: []),
      { id := ('c' :: 'h' :: 'u' :: 'n' :: 'k' :: '_' :: '0' :: '0' :: '0' :: []),
        content := [], status := ChunkStatus.completed,
        result := some ('T' :: '\n' :: '1' :: '.' :: ' ' :: []) })] ≠
      pyJoin ('\n' :: '\n' :: []) [('T' :: '\n' :: '1' :: '.' :: ' ' :: [])] := by
  constructor
  · decide
  · decide

/-- Witness for C5's amended theorem: two chunks recorded in reverse
completion order; the output restores index order and omits the failed
chunk. -/
theorem write_output_files_assembly_witness :
    (([(chunkIdOf 1, c5state 1), (chunkIdOf 0, c5state 0)] :
        List (Str × ChunkState)).Perm
      ((List.range 2).map (fun i => (chunkIdOf i, c5state i)))) ∧
    (∀ i, i < 2 → (c5state i).status = ChunkStatus.completed →
      ∃ r, (c5state i).result = some r ∧ r ≠ [] ∧ pyStrip r = r) ∧
    write_output_txt [(chunkIdOf 1, c5state 1), (chunkIdOf 0, c5state 0)] =
      pyJoin ('\n' :: '\n' :: []) ((List.range 2).filterMap
        (fun i => match (c5state i).status, (c5state i).result with
          | ChunkStatus.completed, some r => some r
          | _, _ => none)) := by
  have hperm : (([(chunkIdOf 1, c5state 1), (chunkIdOf 0, c5state 0)] :
      List (Str × ChunkState)).Perm
        ((List.range 2).map (fun i => (chunkIdOf i, c5state i)))) := by
    have h : (List.range 2).map (fun i => (chunkIdOf i, c5state i)) =
        [(chunkIdOf 0, c5state 0), (chunkIdOf 1, c5state 1)] := rfl
    rw [h]
    exact List.Perm.swap _ _ []
  have hres : ∀ i, i < 2 → (c5state i).status = ChunkStatus.completed →
      ∃ r, (c5state i).result = some r ∧ r ≠ [] ∧ pyStrip r = r := by
    intro i hi hstat
    interval_cases i
    · exact ⟨('B' :: []), rfl, by decide, by decide⟩
    · exact absurd hstat (by decide)
  exact ⟨hperm, hres, write_output_files_assembly 2 c5state _ hperm hres⟩
